import Mathlib

/-!
# Bind-pose transforms and chain retargeting (shared/sdk/RETransform.cpp)

A shallow embedding of `utility::re_transform::calculate_base_transform`,
`calculate_base_transforms`, `sdk::get_joint_parent` and `apply_joints_tpose`.

* The definitions are generic in the number type `R` and use only its sum,
  difference, product and the constants `0`, `1`, `2`: every glm operation
  used by the code is polynomial, except `glm::quat_cast`, which is taken as
  a parameter of the host.  Theorems over exact arithmetic take `R` to be
  any commutative ring; where rounding matters the definitions are run on
  `F32`, the single precision numbers of integer value.
* Pointers `REJoint*` are `Option Nat` (`none` is `nullptr`); `RETransform`
  objects are named by a `Nat`.
* Engine calls made through reflection (`via.Joint.get_Position`, ...) are
  reads and writes of a `World`, each one recorded in `World.calls`.
* Recursion over the parent links carries a fuel argument; `none` is a fault
  (fuel exhausted, or `target->info` dereferenced while null).
-/

namespace REFramework

/-! ## glm value types -/

/-- Three component vector, `glm::vec3` (alias `Vector3f`). -/
@[ext]
structure Vector3f (R : Type) where
  x : R
  y : R
  z : R
deriving DecidableEq, Repr

/-- Four component vector, `glm::vec4` (alias `Vector4f`). -/
@[ext]
structure Vector4f (R : Type) where
  x : R
  y : R
  z : R
  w : R
deriving DecidableEq, Repr

/-- Quaternion `glm::quat`, components `w, x, y, z`. -/
@[ext]
structure Quat (R : Type) where
  w : R
  x : R
  y : R
  z : R
deriving DecidableEq, Repr

/-- Column-major 4x4 matrix `glm::mat4`; `m[i]` is the column `ci`. -/
@[ext]
structure Mat4 (R : Type) where
  c0 : Vector4f R
  c1 : Vector4f R
  c2 : Vector4f R
  c3 : Vector4f R
deriving DecidableEq, Repr

section Glm

variable {R : Type} [Add R] [Sub R] [Mul R] [Zero R] [One R] [OfNat R 2]

instance : Zero (Vector3f R) := ⟨⟨0, 0, 0⟩⟩
instance : Add (Vector3f R) := ⟨fun a b => ⟨a.x + b.x, a.y + b.y, a.z + b.z⟩⟩
instance : Sub (Vector3f R) := ⟨fun a b => ⟨a.x - b.x, a.y - b.y, a.z - b.z⟩⟩

instance : Zero (Vector4f R) := ⟨⟨0, 0, 0, 0⟩⟩
instance : Add (Vector4f R) :=
  ⟨fun a b => ⟨a.x + b.x, a.y + b.y, a.z + b.z, a.w + b.w⟩⟩

instance : Zero (Quat R) := ⟨⟨0, 0, 0, 0⟩⟩

/-- Componentwise product with a scalar, `v * s`. -/
def Vector3f.scale (v : Vector3f R) (s : R) : Vector3f R :=
  ⟨v.x * s, v.y * s, v.z * s⟩

/-- Componentwise product with a scalar, `v * s`. -/
def Vector4f.scale (v : Vector4f R) (s : R) : Vector4f R :=
  ⟨v.x * s, v.y * s, v.z * s, v.w * s⟩

/-- Conversion `glm::vec3(v)` of a `vec4`: the last component is dropped. -/
def Vector4f.xyz (v : Vector4f R) : Vector3f R := ⟨v.x, v.y, v.z⟩

/-- Constructor `Vector4f{v, w}`. -/
def Vector4f.ofVec3 (v : Vector3f R) (w : R) : Vector4f R := ⟨v.x, v.y, v.z, w⟩

/-- Cross product `glm::cross`. -/
def cross (a b : Vector3f R) : Vector3f R :=
  ⟨a.y * b.z - b.y * a.z, a.z * b.x - b.z * a.x, a.x * b.y - b.x * a.y⟩

/-- Rotation of a `vec3` by a quaternion, glm's `operator*(quat, vec3)`:
`v + ((uv * q.w) + uuv) * 2` with `uv = cross(q.xyz, v)`, `uuv = cross(q.xyz, uv)`. -/
def Quat.rotate (q : Quat R) (v : Vector3f R) : Vector3f R :=
  let quatVector : Vector3f R := ⟨q.x, q.y, q.z⟩
  let uv := cross quatVector v
  let uuv := cross quatVector uv
  v + ((uv.scale q.w) + uuv).scale 2

/-- Rotation of a `vec4`, glm's `operator*(quat, vec4)`: `vec4(q * vec3(v), v.w)`. -/
def Quat.rotate4 (q : Quat R) (v : Vector4f R) : Vector4f R :=
  Vector4f.ofVec3 (q.rotate v.xyz) v.w

/-- Quaternion product, glm's `operator*(quat, quat)`. -/
def Quat.mul (p q : Quat R) : Quat R :=
  { w := p.w * q.w - p.x * q.x - p.y * q.y - p.z * q.z
    x := p.w * q.x + p.x * q.w + p.y * q.z - p.z * q.y
    y := p.w * q.y + p.y * q.w + p.z * q.x - p.x * q.z
    z := p.w * q.z + p.z * q.w + p.x * q.y - p.y * q.x }

/-- The identity quaternion `(w, x, y, z) = (1, 0, 0, 0)`. -/
def Quat.identity : Quat R := ⟨1, 0, 0, 0⟩

/-- The 4x4 identity matrix, `glm::identity<glm::mat4>()` and `glm::mat4(1.0f)`. -/
def Mat4.identity : Mat4 R :=
  ⟨⟨1, 0, 0, 0⟩, ⟨0, 1, 0, 0⟩, ⟨0, 0, 1, 0⟩, ⟨0, 0, 0, 1⟩⟩

/-- Matrix times column vector: `m[0] * v.x + m[1] * v.y + m[2] * v.z + m[3] * v.w`. -/
def Mat4.mulVec (m : Mat4 R) (v : Vector4f R) : Vector4f R :=
  m.c0.scale v.x + m.c1.scale v.y + m.c2.scale v.z + m.c3.scale v.w

/-- Matrix product, glm's `operator*(mat4, mat4)`: column `j` of the result
is `m1` applied to column `j` of `m2`. -/
def Mat4.mul (m1 m2 : Mat4 R) : Mat4 R :=
  ⟨m1.mulVec m2.c0, m1.mulVec m2.c1, m1.mulVec m2.c2, m1.mulVec m2.c3⟩

/-- Translation `glm::translate(m, v)`: `m` with its last column replaced by
`m[0] * v.x + m[1] * v.y + m[2] * v.z + m[3]`. -/
def translate (m : Mat4 R) (v : Vector3f R) : Mat4 R :=
  { m with c3 := m.c0.scale v.x + m.c1.scale v.y + m.c2.scale v.z + m.c3 }

/-- Rotation matrix of a quaternion, `glm::mat4_cast`. -/
def mat4_cast (q : Quat R) : Mat4 R :=
  let qxx := q.x * q.x
  let qyy := q.y * q.y
  let qzz := q.z * q.z
  let qxz := q.x * q.z
  let qxy := q.x * q.y
  let qyz := q.y * q.z
  let qwx := q.w * q.x
  let qwy := q.w * q.y
  let qwz := q.w * q.z
  { c0 := ⟨1 - 2 * (qyy + qzz), 2 * (qxy + qwz), 2 * (qxz - qwy), 0⟩
    c1 := ⟨2 * (qxy - qwz), 1 - 2 * (qxx + qzz), 2 * (qyz + qwx), 0⟩
    c2 := ⟨2 * (qxz + qwy), 2 * (qyz - qwx), 1 - 2 * (qxx + qyy), 0⟩
    c3 := ⟨0, 0, 0, 1⟩ }

end Glm

/-! ## Host data and the engine accessors -/

/-- The part of `REJointDesc` the code reads. -/
structure REJointDesc where
  parentJoint : Int
deriving DecidableEq, Repr

/-- The fields of an `REJoint` object the code reads; both are pointers. -/
structure REJoint where
  info : Option REJointDesc
  parentTransform : Option Nat
deriving DecidableEq, Repr

/-- Static data of the host.  `get_joint` is
`utility::re_transform::get_joint(transform, index)`, declared outside this
file; `baseLocalRotation`, `baseLocalPosition` are what the engine methods
`via.Joint.get_BaseLocalRotation` and `get_BaseLocalPosition` answer;
`quat_cast` is `glm::quat_cast`. -/
structure Host (R : Type) where
  joint : Nat → REJoint
  get_joint : Nat → Int → Option Nat
  baseLocalRotation : Nat → Quat R
  baseLocalPosition : Nat → Vector4f R
  quat_cast : Mat4 R → Quat R

/-- One call of an engine method or of the logger. -/
inductive Call (R : Type) where
  | get_BaseLocalRotation (joint : Nat)
  | get_BaseLocalPosition (joint : Nat)
  | get_transform_position (transform : Nat)
  | get_transform_rotation (transform : Nat)
  | get_joint_position (joint : Nat)
  | set_joint_position (joint : Nat) (position : Vector4f R)
  | set_joint_rotation (joint : Nat) (rotation : Quat R)
  | spdlog_info (msg : String)
deriving DecidableEq, Repr

/-- Live poses held by the engine, and the calls made so far (oldest first).
A write of a joint's world position or rotation changes that joint's stored
value only. -/
structure World (R : Type) where
  transform_position : Nat → Vector4f R
  transform_rotation : Nat → Quat R
  joint_position : Nat → Vector4f R
  joint_rotation : Nat → Quat R
  calls : List (Call R)

section Accessors

variable {R : Type}

/-- The accessor `sdk::get_transform_position`. -/
def get_transform_position (w : World R) (transform : Nat) : Vector4f R × World R :=
  (w.transform_position transform,
    { w with calls := w.calls ++ [Call.get_transform_position transform] })

/-- The accessor `sdk::get_transform_rotation`. -/
def get_transform_rotation (w : World R) (transform : Nat) : Quat R × World R :=
  (w.transform_rotation transform,
    { w with calls := w.calls ++ [Call.get_transform_rotation transform] })

/-- The accessor `sdk::get_joint_position`. -/
def get_joint_position (w : World R) (joint : Nat) : Vector4f R × World R :=
  (w.joint_position joint, { w with calls := w.calls ++ [Call.get_joint_position joint] })

/-- The mutator `sdk::set_joint_position`. -/
def set_joint_position (w : World R) (joint : Nat) (position : Vector4f R) : World R :=
  { w with
    joint_position := Function.update w.joint_position joint position
    calls := w.calls ++ [Call.set_joint_position joint position] }

/-- The mutator `sdk::set_joint_rotation`. -/
def set_joint_rotation (w : World R) (joint : Nat) (rotation : Quat R) : World R :=
  { w with
    joint_rotation := Function.update w.joint_rotation joint rotation
    calls := w.calls ++ [Call.set_joint_rotation joint rotation] }

/-- The logger `spdlog::info`. -/
def spdlog_info (w : World R) (msg : String) : World R :=
  { w with calls := w.calls ++ [Call.spdlog_info msg] }

/-- Parent lookup `sdk::get_joint_parent`. -/
def get_joint_parent (H : Host R) (joint : Option Nat) : Option Nat :=
  match joint with
  | none => none
  | some j =>
    match (H.joint j).info with
    | none => none
    | some info =>
      if info.parentJoint = -1 then none
      else
        match (H.joint j).parentTransform with
        | none => none
        | some joint_transform => H.get_joint joint_transform info.parentJoint

end Accessors

/-! ## Parent links as the bind recursion sees them -/

section Links

variable {R : Type}

/-- The parent that `calculate_base_transform` recurses into from joint `j`:
`get_joint(transform, j->info->parentJoint)` unless the index is `-1`. -/
def bind_parent (H : Host R) (transform : Nat) (j : Nat) : Option Nat :=
  match (H.joint j).info with
  | none => none
  | some info => if info.parentJoint = -1 then none else H.get_joint transform info.parentJoint

/-- Every joint object has a descriptor (`joint->info` is never null). -/
def InfoOk (H : Host R) : Prop := ∀ j, (H.joint j).info ≠ none

/-- The parent links seen from `transform` are acyclic and every joint lies
at depth below `fuel`. -/
def DepthBelow (H : Host R) (transform fuel : Nat) : Prop :=
  ∃ rank : Nat → Nat,
    (∀ j p, bind_parent H transform j = some p → rank p < rank j) ∧ ∀ j, rank j < fuel

/-- Is the call a read of the bind local rotation of joint `j`? -/
def Call.isBaseRotation (j : Nat) : Call R → Bool
  | Call.get_BaseLocalRotation k => k == j
  | _ => false

/-- Is the call a read of the bind local position of joint `j`? -/
def Call.isBasePosition (j : Nat) : Call R → Bool
  | Call.get_BaseLocalPosition k => k == j
  | _ => false

/-- Is the call a mutation (`set_joint_position` or `set_joint_rotation`)? -/
def Call.isMutation : Call R → Bool
  | Call.set_joint_position _ _ => true
  | Call.set_joint_rotation _ _ => true
  | _ => false

/-- Is the call a world position or rotation write to joint `j`? -/
def Call.isWriteTo (j : Nat) : Call R → Bool
  | Call.set_joint_position k _ => k == j
  | Call.set_joint_rotation k _ => k == j
  | _ => false

/-- Order of cache keys used to bound what a memoized call may add: a key
lies below the target when it is the target's kind of pointer and its rank
is not larger. -/
def Below (rank : Nat → Nat) : Option Nat → Option Nat → Prop
  | none, none => True
  | some a, some b => rank a ≤ rank b
  | _, _ => False

/-- A cache is closed when, with a joint, it holds the joint's parent. -/
def AncClosed (H : Host R) (transform : Nat) (out : Option Nat → Option (Mat4 R)) : Prop :=
  ∀ j p, out (some j) ≠ none → bind_parent H transform j = some p → out (some p) ≠ none

/-- Call-count invariant of a cache filled from empty: the bind data of a
joint has been read once if the joint is cached and has a parent, and not at
all otherwise. -/
def ReadsInv (H : Host R) (transform : Nat) (out : Option Nat → Option (Mat4 R))
    (calls : List (Call R)) : Prop :=
  ∀ j,
    ((out (some j) ≠ none ∧ bind_parent H transform j ≠ none) →
      calls.countP (Call.isBaseRotation j) = 1 ∧ calls.countP (Call.isBasePosition j) = 1) ∧
    (¬ (out (some j) ≠ none ∧ bind_parent H transform j ≠ none) →
      calls.countP (Call.isBaseRotation j) = 0 ∧ calls.countP (Call.isBasePosition j) = 0)

/-- Joint `a` is reached from joint `j` by following parent links (zero or
more of them). -/
inductive Reaches (H : Host R) (transform : Nat) : Nat → Nat → Prop
  | refl (j : Nat) : Reaches H transform j j
  | step (j p a : Nat) : bind_parent H transform j = some p → Reaches H transform p a →
      Reaches H transform j a

end Links

/-! ## Bind-pose transforms -/

section Bind

variable {R : Type} [Add R] [Sub R] [Mul R] [Zero R] [One R] [OfNat R 2]

/-- The local bind matrix built in both functions:
`glm::translate(glm::mat4(1.0f), vec3(base_position)) * glm::mat4_cast(base_rotation)`. -/
def base_transform_of (base_rotation : Quat R) (base_position : Vector4f R) : Mat4 R :=
  (translate Mat4.identity ⟨base_position.x, base_position.y, base_position.z⟩).mul
    (mat4_cast base_rotation)

/-- The recursion `calculate_base_transform(transform, target)`.  The result
is the matrix and the bind-data calls made, in order. -/
def calculate_base_transform (H : Host R) (transform : Nat) :
    Nat → Option Nat → Option (Mat4 R × List (Call R))
  | 0, _ => none
  | fuel + 1, target =>
    match target with
    | none => some (Mat4.identity, [])
    | some t =>
      match (H.joint t).info with
      | none => none
      | some info =>
        let parent := info.parentJoint
        if parent = -1 then some (Mat4.identity, [])
        else
          match H.get_joint transform parent with
          | none => some (Mat4.identity, [])
          | some parent_joint =>
            match calculate_base_transform H transform fuel (some parent_joint) with
            | none => none
            | some (parent_transform, calls) =>
              let base_rotation := H.baseLocalRotation t
              let base_position := H.baseLocalPosition t
              let base_transform := base_transform_of base_rotation base_position
              some (parent_transform.mul base_transform,
                calls ++ [Call.get_BaseLocalRotation t, Call.get_BaseLocalPosition t])

/-- The cache `std::unordered_map<REJoint*, glm::mat4>`. -/
abbrev Cache (R : Type) := Option Nat → Option (Mat4 R)

/-- The empty cache. -/
def Cache.empty : Cache R := fun _ => none

/-- The memoized `calculate_base_transforms(transform, target, out)`; the
state is the cache `out` and the list of calls made so far. -/
def calculate_base_transforms (H : Host R) (transform : Nat) :
    Nat → Option Nat → Cache R → List (Call R) → Option (Cache R × List (Call R))
  | 0, _, _, _ => none
  | fuel + 1, target, out, calls =>
    match out target with
    | some _ => some (out, calls)
    | none =>
      match target with
      | none => some (Function.update out none (some Mat4.identity), calls)
      | some t =>
        match (H.joint t).info with
        | none => none
        | some info =>
          let parent := info.parentJoint
          if parent = -1 then some (Function.update out (some t) (some Mat4.identity), calls)
          else
            match H.get_joint transform parent with
            | none => some (Function.update out (some t) (some Mat4.identity), calls)
            | some parent_joint =>
              match calculate_base_transforms H transform fuel (some parent_joint) out calls with
              | none => none
              | some (out1, calls1) =>
                match out1 (some parent_joint) with
                | none => some (Function.update out1 (some t) (some Mat4.identity), calls1)
                | some parent_transform =>
                  let base_rotation := H.baseLocalRotation t
                  let base_position := H.baseLocalPosition t
                  let base_transform := base_transform_of base_rotation base_position
                  some (Function.update out1 (some t) (some (parent_transform.mul base_transform)),
                    calls1 ++ [Call.get_BaseLocalRotation t, Call.get_BaseLocalPosition t])

/-- Every entry of the cache is what the direct recursion returns for its key. -/
def CacheValid (H : Host R) (transform : Nat) (out : Cache R) : Prop :=
  ∀ k m, out k = some m → ∃ fuel calls, calculate_base_transform H transform fuel k = some (m, calls)

/-- What one memoized call guarantees about the cache and the calls. -/
structure CbtsPost (H : Host R) (transform : Nat) (rank : Nat → Nat) (target : Option Nat)
    (out : Cache R) (calls : List (Call R)) (out1 : Cache R) (calls1 : List (Call R)) :
    Prop where
  cached : out1 target ≠ none
  mono : ∀ k m, out k = some m → out1 k = some m
  frame : ∀ k, out1 k = out k ∨ (out k = none ∧ Below rank k target)
  valid : CacheValid H transform out → CacheValid H transform out1
  closed : AncClosed H transform out → AncClosed H transform out1
  reads : ReadsInv H transform out calls → ReadsInv H transform out1 calls1
  extra : ∃ extra, calls1 = calls ++ extra ∧ ∀ c ∈ extra, Call.isMutation c = false

end Bind

/-! ## Chain retargeting -/

section Tpose

variable {R : Type} [Add R] [Sub R] [Mul R] [Zero R] [One R] [OfNat R 2]

/-- The local variables of `apply_joints_tpose` and the world, as they are
when the function returns.  The three vectors have `joints.size()` entries,
value-initialised to zero, and are only indexed below that size. -/
structure TposeFrame (R : Type) where
  joints : List (Option Nat)
  original_positions : Nat → Vector3f R
  original_rotations : Nat → Quat R
  current_positions : Nat → Vector3f R
  base_transforms : Cache R
  world : World R

/-- The loop `for (i = 0; i < additional_parents; i++)`: the parent of
`joints[0]` is inserted at the front until none is found.  The counter is a
natural number here; the `int` counter of the code would only overflow after
`2^31` insertions. -/
def insert_additional_parents (H : Host R) : Nat → List (Option Nat) → List (Option Nat)
  | 0, joints => joints
  | n + 1, joints =>
    match get_joint_parent H (joints.headD none) with
    | none => joints
    | some parent => insert_additional_parents H n (some parent :: joints)

/-- Body of the first loop of `apply_joints_tpose` at index `i`. -/
def first_pass_step (H : Host R) (transform fuel : Nat) (player_pos : Vector4f R)
    (player_rot : Quat R) (i : Nat) (s : TposeFrame R) : Option (TposeFrame R) :=
  match s.joints.getD i none with
  | none => some s
  | some joint =>
    match calculate_base_transforms H transform fuel (some joint)
        s.base_transforms s.world.calls with
    | none => none
    | some (out, calls) =>
      match out (some joint) with
      | none => some { s with base_transforms := out, world := { s.world with calls := calls } }
      | some base_transform =>
        let r := get_joint_position { s.world with calls := calls } joint
        some { s with
          original_positions := Function.update s.original_positions i
            (player_pos + player_rot.rotate4 base_transform.c3).xyz
          original_rotations := Function.update s.original_rotations i
            (player_rot.mul (H.quat_cast base_transform))
          current_positions := Function.update s.current_positions i r.1.xyz
          base_transforms := out
          world := r.2 }

/-- The first loop, `for (i = 0; i < joints.size(); i++)`, run for `n` more
iterations from index `i`. -/
def first_pass (H : Host R) (transform fuel : Nat) (player_pos : Vector4f R)
    (player_rot : Quat R) : Nat → Nat → TposeFrame R → Option (TposeFrame R)
  | 0, _, s => some s
  | n + 1, i, s =>
    match first_pass_step H transform fuel player_pos player_rot i s with
    | none => none
    | some s1 => first_pass H transform fuel player_pos player_rot n (i + 1) s1

/-- Body of the second loop of `apply_joints_tpose` at index `i`. -/
def second_pass_step (i : Nat) (s : TposeFrame R) : TposeFrame R :=
  match s.joints.getD i none with
  | none => s
  | some _ =>
    match s.joints.getD (i + 1) none with
    | none => s
    | some next_joint =>
      let diff := s.original_positions (i + 1) - s.original_positions i
      let updated_pos := Vector4f.ofVec3 (s.current_positions i + diff) 1
      let w1 := set_joint_position s.world next_joint updated_pos
      let w2 := set_joint_rotation w1 next_joint (s.original_rotations (i + 1))
      { s with
        current_positions := Function.update s.current_positions (i + 1) updated_pos.xyz
        world := w2 }

/-- The second loop, `for (i = 0; i < joints.size() - 1; i++)`, run for `n`
more iterations from index `i`. -/
def second_pass : Nat → Nat → TposeFrame R → TposeFrame R
  | 0, _, s => s
  | n + 1, i, s => second_pass n (i + 1) (second_pass_step i s)

/-- The function `apply_joints_tpose(transform, joints_initial, additional_parents)`,
returning its frame; the world after the call is the field `world`. -/
def apply_joints_tpose (H : Host R) (fuel : Nat) (w : World R) (transform : Nat)
    (joints_initial : List (Option Nat)) (additional_parents : Nat) :
    Option (TposeFrame R) :=
  match joints_initial with
  | [] | none :: _ =>
    some
      { joints := []
        original_positions := fun _ => 0
        original_rotations := fun _ => 0
        current_positions := fun _ => 0
        base_transforms := Cache.empty
        world := spdlog_info w "No joints to apply tpose" }
  | some j0 :: rest =>
    let joints := some j0 :: rest
    let p := get_transform_position w transform
    let player_pos := p.1
    let q := get_transform_rotation p.2 transform
    let player_rot := q.1
    let joints := get_joint_parent H (joints.headD none) :: joints
    let joints := insert_additional_parents H additional_parents joints
    let s : TposeFrame R :=
      { joints := joints
        original_positions := fun _ => 0
        original_rotations := fun _ => 0
        current_positions := fun _ => 0
        base_transforms := Cache.empty
        world := q.2 }
    match first_pass H transform fuel player_pos player_rot joints.length 0 s with
    | none => none
    | some s1 => some (second_pass (joints.length - 1) 0 s1)

/-- The joints the two loops run over: the supplied chain with the parent of
its first joint in front (null when there is none), then the additional
parents. -/
def processed_joints (H : Host R) (joints_initial : List (Option Nat))
    (additional_parents : Nat) : List (Option Nat) :=
  insert_additional_parents H additional_parents
    (get_joint_parent H (joints_initial.headD none) :: joints_initial)

/-- The list `anc` holds the ancestors of joint `j` as `sdk::get_joint_parent`
finds them, nearest first, up to the one that has no parent. -/
def ParentChain (H : Host R) : Nat → List Nat → Prop
  | j, [] => get_joint_parent H (some j) = none
  | j, a :: as => get_joint_parent H (some j) = some a ∧ ParentChain H a as

/-- The bind matrix of joint `j`, as the direct recursion computes it. -/
def bind_matrix (H : Host R) (transform fuel j : Nat) : Mat4 R :=
  match calculate_base_transform H transform fuel (some j) with
  | some r => r.1
  | none => Mat4.identity

/-- What holds after the first loop has handled the indices below `i`. -/
structure FirstInv (H : Host R) (transform fuel : Nat) (w0 : World R)
    (js : List (Option Nat)) (player_pos : Vector4f R) (player_rot : Quat R) (i : Nat)
    (s : TposeFrame R) : Prop where
  joints : s.joints = js
  jpos : s.world.joint_position = w0.joint_position
  jrot : s.world.joint_rotation = w0.joint_rotation
  tpos : s.world.transform_position = w0.transform_position
  trot : s.world.transform_rotation = w0.transform_rotation
  calls : ∃ extra, s.world.calls = w0.calls ++ extra ∧ ∀ c ∈ extra, Call.isMutation c = false
  valid : CacheValid H transform s.base_transforms
  done : ∀ m j, m < i → js.getD m none = some j →
    s.original_positions m
      = (player_pos + player_rot.rotate4 (bind_matrix H transform fuel j).c3).xyz ∧
    s.original_rotations m = player_rot.mul (H.quat_cast (bind_matrix H transform fuel j)) ∧
    s.current_positions m = (w0.joint_position j).xyz

/-- What the second loop, run for `n` iterations from index `i` on the frame
`s`, guarantees about the frame `s1` it ends in. -/
structure SecondPost (i n : Nat) (s s1 : TposeFrame R) : Prop where
  joints : s1.joints = s.joints
  opos : s1.original_positions = s.original_positions
  orot : s1.original_rotations = s.original_rotations
  tpos : s1.world.transform_position = s.world.transform_position
  trot : s1.world.transform_rotation = s.world.transform_rotation
  cur_low : ∀ m, m ≤ i → s1.current_positions m = s.current_positions m
  cur_link : ∀ m a b, i ≤ m → m < i + n → s.joints.getD m none = some a →
    s.joints.getD (m + 1) none = some b →
    s1.current_positions (m + 1)
      = s1.current_positions m + (s.original_positions (m + 1) - s.original_positions m)
  cur_nolink : ∀ m, i ≤ m →
    (m < i + n → (s.joints.getD m none = none ∨ s.joints.getD (m + 1) none = none)) →
    s1.current_positions (m + 1) = s.current_positions (m + 1)
  calls : ∃ extra, s1.world.calls = s.world.calls ++ extra
  untouched : ∀ j,
    (∀ m a, i ≤ m → m < i + n → s.joints.getD m none = some a →
      s.joints.getD (m + 1) none ≠ some j) →
    s1.world.joint_position j = s.world.joint_position j ∧
    s1.world.joint_rotation j = s.world.joint_rotation j ∧
    s1.world.calls.filter (Call.isWriteTo j) = s.world.calls.filter (Call.isWriteTo j)
  written : ∀ m a b, i ≤ m → m < i + n → s.joints.getD m none = some a →
    s.joints.getD (m + 1) none = some b →
    Call.set_joint_position b (Vector4f.ofVec3 (s1.current_positions (m + 1)) 1)
      ∈ s1.world.calls ∧
    Call.set_joint_rotation b (s.original_rotations (m + 1)) ∈ s1.world.calls ∧
    ((∀ k c, m < k → k < i + n → s.joints.getD k none = some c →
        s.joints.getD (k + 1) none ≠ some b) →
      s1.world.joint_position b = Vector4f.ofVec3 (s1.current_positions (m + 1)) 1 ∧
      s1.world.joint_rotation b = s.original_rotations (m + 1))

/-- What a run of `apply_joints_tpose` from the world `w` over the processed
joints `js` guarantees about the frame `s` it returns. -/
structure RunPost (H : Host R) (transform fuel : Nat) (w : World R)
    (js : List (Option Nat)) (s : TposeFrame R) : Prop where
  joints : s.joints = js
  tpos : s.world.transform_position = w.transform_position
  trot : s.world.transform_rotation = w.transform_rotation
  cur_first : ∀ x, js.getD 0 none = some x →
    s.current_positions 0 = (w.joint_position x).xyz
  cur_link : ∀ m a b, js.getD m none = some a → js.getD (m + 1) none = some b →
    s.current_positions (m + 1) = s.current_positions m +
      (w.transform_rotation transform).rotate
        ((bind_matrix H transform fuel b).c3.xyz - (bind_matrix H transform fuel a).c3.xyz)
  cur_nolink : ∀ m b, js.getD m none = none → js.getD (m + 1) none = some b →
    s.current_positions (m + 1) = (w.joint_position b).xyz
  untouched : ∀ j, (∀ m a, js.getD m none = some a → js.getD (m + 1) none ≠ some j) →
    s.world.joint_position j = w.joint_position j ∧
    s.world.joint_rotation j = w.joint_rotation j ∧
    s.world.calls.filter (Call.isWriteTo j) = w.calls.filter (Call.isWriteTo j)
  written : ∀ m a b, js.getD m none = some a → js.getD (m + 1) none = some b →
    Call.set_joint_position b (Vector4f.ofVec3 (s.current_positions (m + 1)) 1)
      ∈ s.world.calls ∧
    Call.set_joint_rotation b
      ((w.transform_rotation transform).mul (H.quat_cast (bind_matrix H transform fuel b)))
      ∈ s.world.calls ∧
    ((∀ k c, m < k → js.getD k none = some c → js.getD (k + 1) none ≠ some b) →
      s.world.joint_position b = Vector4f.ofVec3 (s.current_positions (m + 1)) 1 ∧
      s.world.joint_rotation b
        = (w.transform_rotation transform).mul
            (H.quat_cast (bind_matrix H transform fuel b)))

end Tpose

/-! ## A small skeleton used to instantiate the statements -/

section Sample

/-- A skeleton over the integers: joint `0` is the root, `1` hangs below `0`,
`2` below `1` and `3` below `0`; joints `1` and `2` sit at bind offset
`(0, 1, 0)`, joint `3` at `(1, 0, 0)`; joint `4` names a parent index `9`
that resolves to no joint; every other joint is a root. -/
def sampleHost : Host ℤ where
  joint := fun j =>
    match j with
    | 1 => ⟨some ⟨0⟩, some 0⟩
    | 2 => ⟨some ⟨1⟩, some 0⟩
    | 3 => ⟨some ⟨0⟩, some 0⟩
    | 4 => ⟨some ⟨9⟩, some 0⟩
    | _ => ⟨some ⟨-1⟩, some 0⟩
  get_joint := fun _ index =>
    match index with
    | Int.ofNat 0 => some 0
    | Int.ofNat 1 => some 1
    | Int.ofNat 2 => some 2
    | Int.ofNat 3 => some 3
    | _ => none
  baseLocalRotation := fun _ => Quat.identity
  baseLocalPosition := fun j =>
    match j with
    | 1 => ⟨0, 1, 0, 1⟩
    | 2 => ⟨0, 1, 0, 1⟩
    | 3 => ⟨1, 0, 0, 1⟩
    | _ => ⟨0, 0, 0, 1⟩
  quat_cast := fun _ => Quat.identity

/-- Depth of a joint of `sampleHost`. -/
def sampleRank (j : Nat) : Nat :=
  match j with
  | 1 => 1
  | 2 => 2
  | 3 => 1
  | _ => 0

/-- A live state for `sampleHost`: the root transform sits at `(10, 0, 0)`
with the identity rotation, joint `j` at `(5 j, 5, 5)`. -/
def sampleWorld : World ℤ where
  transform_position := fun _ => ⟨10, 0, 0, 1⟩
  transform_rotation := fun _ => Quat.identity
  joint_position := fun j => ⟨5 * (j : ℤ), 5, 5, 1⟩
  joint_rotation := fun _ => Quat.identity
  calls := []

/-- A cache holding the bind matrix of joint `1` only. -/
def sampleCache : Cache ℤ :=
  fun k => if k = some 1 then some (base_transform_of Quat.identity ⟨0, 1, 0, 1⟩) else none

end Sample

/-! ## Single precision numbers of integer value

The `float` of the source is IEEE 754 binary32.  Sums, differences and
products of integers are integers, so the binary32 numbers of integer value
are closed under the operations the code uses; each operation returns the
exact result rounded to the nearest binary32 number, ties to even.  Results
from `2^128` on (overflow to infinity) are not modelled. -/

section Binary32

/-- Number of halvings that bring `n` below `2^24`: the exponent of the last
place of the 24-bit significand of `n`. -/
def ulpExponent : Nat → Nat → Nat
  | 0, _ => 0
  | fuel + 1, n => if n < 2 ^ 24 then 0 else 1 + ulpExponent fuel (n / 2)

/-- Rounding of a natural number to the nearest binary32 number, ties to
even; numbers below `2^24` are exact. -/
def roundNat (n : Nat) : Nat :=
  let e := ulpExponent 128 n
  if e = 0 then n
  else
    let q := n / 2 ^ e
    let r := n % 2 ^ e
    let half := 2 ^ (e - 1)
    if half < r ∨ (r = half ∧ q % 2 = 1) then (q + 1) * 2 ^ e else q * 2 ^ e

/-- Rounding of an integer to the nearest binary32 number, ties to even. -/
def roundInt : Int → Int
  | Int.ofNat n => Int.ofNat (roundNat n)
  | Int.negSucc n => - Int.ofNat (roundNat (n + 1))

/-- A binary32 number of integer value. -/
structure F32 where
  val : Int
deriving DecidableEq, Repr

instance : Add F32 := ⟨fun a b => ⟨roundInt (a.val + b.val)⟩⟩
instance : Sub F32 := ⟨fun a b => ⟨roundInt (a.val - b.val)⟩⟩
instance : Mul F32 := ⟨fun a b => ⟨roundInt (a.val * b.val)⟩⟩
instance : Zero F32 := ⟨⟨0⟩⟩
instance : One F32 := ⟨⟨1⟩⟩
instance (n : Nat) : OfNat F32 n := ⟨⟨roundInt (Int.ofNat n)⟩⟩

/-- A skeleton in single precision: joint `0` is the root; `1` hangs below
`0` at bind offset `(2^24, 0, 0)`, `2` below `1` and `3` below `2`, each at
`(1, 0, 0)`; `4`, `5` and `6` hang below `0` at `(0, 1, 0)`, `(0, 2, 0)` and
`(1, 0, 0)`; every bind rotation is the identity. -/
def floatHost : Host F32 where
  joint := fun j =>
    match j with
    | 1 => ⟨some ⟨0⟩, some 0⟩
    | 2 => ⟨some ⟨1⟩, some 0⟩
    | 3 => ⟨some ⟨2⟩, some 0⟩
    | 4 => ⟨some ⟨0⟩, some 0⟩
    | 5 => ⟨some ⟨0⟩, some 0⟩
    | 6 => ⟨some ⟨0⟩, some 0⟩
    | _ => ⟨some ⟨-1⟩, some 0⟩
  get_joint := fun _ index =>
    match index with
    | Int.ofNat n => if n < 7 then some n else none
    | _ => none
  baseLocalRotation := fun _ => Quat.identity
  baseLocalPosition := fun j =>
    match j with
    | 1 => ⟨16777216, 0, 0, 1⟩
    | 2 => ⟨1, 0, 0, 1⟩
    | 3 => ⟨1, 0, 0, 1⟩
    | 4 => ⟨0, 1, 0, 1⟩
    | 5 => ⟨0, 2, 0, 1⟩
    | 6 => ⟨1, 0, 0, 1⟩
    | _ => ⟨0, 0, 0, 1⟩
  quat_cast := fun _ => Quat.identity

/-- A live state for `floatHost`: the root transform sits at `(2^24, 0, 0)`
with the identity rotation, joint `5` at `(25, 5, 5)`, every other joint at
`(0, 5, 5)`. -/
def floatWorld : World F32 where
  transform_position := fun _ => ⟨16777216, 0, 0, 1⟩
  transform_rotation := fun _ => Quat.identity
  joint_position := fun j =>
    match j with
    | 5 => ⟨25, 5, 5, 1⟩
    | _ => ⟨0, 5, 5, 1⟩
  joint_rotation := fun _ => Quat.identity
  calls := []

end Binary32

/-! ## Algebra of the glm operations -/

section GlmLemmas

variable {R : Type} [CommRing R]

@[simp] theorem vec3_add_x (a b : Vector3f R) : (a + b).x = a.x + b.x := rfl
@[simp] theorem vec3_add_y (a b : Vector3f R) : (a + b).y = a.y + b.y := rfl
@[simp] theorem vec3_add_z (a b : Vector3f R) : (a + b).z = a.z + b.z := rfl
@[simp] theorem vec3_sub_x (a b : Vector3f R) : (a - b).x = a.x - b.x := rfl
@[simp] theorem vec3_sub_y (a b : Vector3f R) : (a - b).y = a.y - b.y := rfl
@[simp] theorem vec3_sub_z (a b : Vector3f R) : (a - b).z = a.z - b.z := rfl
@[simp] theorem vec3_zero_x : (0 : Vector3f R).x = 0 := rfl
@[simp] theorem vec3_zero_y : (0 : Vector3f R).y = 0 := rfl
@[simp] theorem vec3_zero_z : (0 : Vector3f R).z = 0 := rfl
@[simp] theorem vec4_add_x (a b : Vector4f R) : (a + b).x = a.x + b.x := rfl
@[simp] theorem vec4_add_y (a b : Vector4f R) : (a + b).y = a.y + b.y := rfl
@[simp] theorem vec4_add_z (a b : Vector4f R) : (a + b).z = a.z + b.z := rfl
@[simp] theorem vec4_add_w (a b : Vector4f R) : (a + b).w = a.w + b.w := rfl

/-- Rotation by a quaternion is additive in the vector, whatever the quaternion. -/
theorem rotate_sub (q : Quat R) (a b : Vector3f R) :
    q.rotate a - q.rotate b = q.rotate (a - b) := by
  ext <;> simp [Quat.rotate, cross, Vector3f.scale] <;> ring

/-- The difference of two rotated-and-shifted bind translations. -/
theorem original_position_sub (player_pos : Vector4f R) (player_rot : Quat R)
    (a b : Vector4f R) :
    (player_pos + player_rot.rotate4 a).xyz - (player_pos + player_rot.rotate4 b).xyz
      = player_rot.rotate (a.xyz - b.xyz) := by
  ext <;> simp [Quat.rotate4, Quat.rotate, cross, Vector3f.scale, Vector4f.xyz,
    Vector4f.ofVec3] <;> ring

theorem mat4_cast_identity : mat4_cast (Quat.identity : Quat R) = Mat4.identity := by
  simp [mat4_cast, Quat.identity, Mat4.identity]

theorem identity_mul (m : Mat4 R) : Mat4.identity.mul m = m := by
  ext <;> simp [Mat4.mul, Mat4.mulVec, Mat4.identity, Vector4f.scale]

theorem mul_identity (m : Mat4 R) : m.mul Mat4.identity = m := by
  ext <;> simp [Mat4.mul, Mat4.mulVec, Mat4.identity, Vector4f.scale]

end GlmLemmas

/-! ## The bind recursion -/

section BindLemmas

variable {R : Type} [CommRing R]

theorem cbt_null (H : Host R) (transform fuel : Nat) :
    calculate_base_transform H transform (fuel + 1) none = some (Mat4.identity, []) := by
  simp [calculate_base_transform]

theorem cbt_root (H : Host R) (transform fuel j : Nat)
    (hinfo : (H.joint j).info ≠ none) (hp : bind_parent H transform j = none) :
    calculate_base_transform H transform (fuel + 1) (some j) = some (Mat4.identity, []) := by
  unfold bind_parent at hp
  unfold calculate_base_transform
  cases hi : (H.joint j).info with
  | none => exact absurd hi hinfo
  | some info =>
    rw [hi] at hp
    by_cases h1 : info.parentJoint = -1
    · simp [hi, h1]
    · simp [h1] at hp
      simp [hi, h1, hp]

theorem cbt_step (H : Host R) (transform fuel j p : Nat)
    (hp : bind_parent H transform j = some p) :
    calculate_base_transform H transform (fuel + 1) (some j) =
      match calculate_base_transform H transform fuel (some p) with
      | none => none
      | some (parent_transform, calls) =>
        some (parent_transform.mul
            (base_transform_of (H.baseLocalRotation j) (H.baseLocalPosition j)),
          calls ++ [Call.get_BaseLocalRotation j, Call.get_BaseLocalPosition j]) := by
  unfold bind_parent at hp
  conv_lhs => unfold calculate_base_transform
  cases hi : (H.joint j).info with
  | none => simp [hi] at hp
  | some info =>
    rw [hi] at hp
    by_cases h1 : info.parentJoint = -1
    · simp [h1] at hp
    · simp [h1] at hp
      simp [hi, h1, hp]

theorem cbt_mono (H : Host R) (transform : Nat) :
    ∀ (fuel : Nat) (target : Option Nat) (r : Mat4 R × List (Call R)),
      calculate_base_transform H transform fuel target = some r →
      calculate_base_transform H transform (fuel + 1) target = some r := by
  intro fuel
  induction fuel with
  | zero => intro target r h; simp [calculate_base_transform] at h
  | succ n ih =>
    intro target r h
    cases target with
    | none => rw [cbt_null] at h ⊢; exact h
    | some j =>
      cases hp : bind_parent H transform j with
      | none =>
        have hinfo : (H.joint j).info ≠ none := by
          intro hi
          unfold calculate_base_transform at h
          simp [hi] at h
        rw [cbt_root H transform _ j hinfo hp] at h ⊢
        exact h
      | some p =>
        rw [cbt_step H transform _ j p hp] at h ⊢
        cases hrec : calculate_base_transform H transform n (some p) with
        | none => simp [hrec] at h
        | some r1 =>
          rw [ih _ _ hrec]
          rw [hrec] at h
          exact h

theorem cbt_mono_add (H : Host R) (transform fuel : Nat) (target : Option Nat)
    (r : Mat4 R × List (Call R))
    (h : calculate_base_transform H transform fuel target = some r) (k : Nat) :
    calculate_base_transform H transform (fuel + k) target = some r := by
  induction k with
  | zero => exact h
  | succ k ih => exact cbt_mono H transform _ _ _ ih

theorem cbt_mono_le (H : Host R) (transform : Nat) {f1 f2 : Nat} (hle : f1 ≤ f2)
    (target : Option Nat) (r : Mat4 R × List (Call R))
    (h : calculate_base_transform H transform f1 target = some r) :
    calculate_base_transform H transform f2 target = some r := by
  obtain ⟨k, rfl⟩ := Nat.exists_eq_add_of_le hle
  exact cbt_mono_add H transform f1 target r h k

/-- Two successful runs of the recursion agree, whatever their fuel. -/
theorem cbt_fuel_indep (H : Host R) (transform : Nat) {f1 f2 : Nat} (target : Option Nat)
    (r1 r2 : Mat4 R × List (Call R))
    (h1 : calculate_base_transform H transform f1 target = some r1)
    (h2 : calculate_base_transform H transform f2 target = some r2) : r1 = r2 := by
  have a := cbt_mono_le H transform (Nat.le_max_left f1 f2) target r1 h1
  have b := cbt_mono_le H transform (Nat.le_max_right f1 f2) target r2 h2
  rw [a] at b
  exact Option.some.inj b

theorem cbt_total (H : Host R) (transform : Nat) (hinfo : InfoOk H) (rank : Nat → Nat)
    (hrank : ∀ j p, bind_parent H transform j = some p → rank p < rank j) :
    ∀ (fuel j : Nat), rank j < fuel →
      ∃ r, calculate_base_transform H transform fuel (some j) = some r := by
  intro fuel
  induction fuel with
  | zero => intro j h; exact absurd h (Nat.not_lt_zero _)
  | succ n ih =>
    intro j h
    cases hp : bind_parent H transform j with
    | none => exact ⟨_, cbt_root H transform n j (hinfo j) hp⟩
    | some p =>
      have hlt : rank p < n := lt_of_lt_of_le (hrank j p hp) (Nat.lt_succ_iff.mp h)
      obtain ⟨r, hr⟩ := ih p hlt
      rw [cbt_step H transform n j p hp, hr]
      exact ⟨_, rfl⟩

end BindLemmas

/-! ## The memoized recursion -/

section CacheLemmas

variable {R : Type} [CommRing R]

theorem cbts_hit (H : Host R) (transform fuel : Nat) (target : Option Nat) (out : Cache R)
    (calls : List (Call R)) (m : Mat4 R) (h : out target = some m) :
    calculate_base_transforms H transform (fuel + 1) target out calls = some (out, calls) := by
  simp [calculate_base_transforms, h]

theorem cbts_null (H : Host R) (transform fuel : Nat) (out : Cache R)
    (calls : List (Call R)) (h : out none = none) :
    calculate_base_transforms H transform (fuel + 1) none out calls
      = some (Function.update out none (some Mat4.identity), calls) := by
  simp [calculate_base_transforms, h]

theorem cbts_root (H : Host R) (transform fuel j : Nat) (out : Cache R)
    (calls : List (Call R)) (h : out (some j) = none)
    (hinfo : (H.joint j).info ≠ none) (hp : bind_parent H transform j = none) :
    calculate_base_transforms H transform (fuel + 1) (some j) out calls
      = some (Function.update out (some j) (some Mat4.identity), calls) := by
  unfold bind_parent at hp
  cases hi : (H.joint j).info with
  | none => exact absurd hi hinfo
  | some info =>
    rw [hi] at hp
    by_cases h1 : info.parentJoint = -1
    · simp [calculate_base_transforms, h, hi, h1]
    · simp [h1] at hp
      simp [calculate_base_transforms, h, hi, h1, hp]

theorem cbts_step (H : Host R) (transform fuel j p : Nat) (out : Cache R)
    (calls : List (Call R)) (h : out (some j) = none)
    (hp : bind_parent H transform j = some p) :
    calculate_base_transforms H transform (fuel + 1) (some j) out calls =
      match calculate_base_transforms H transform fuel (some p) out calls with
      | none => none
      | some (out1, calls1) =>
        match out1 (some p) with
        | none => some (Function.update out1 (some j) (some Mat4.identity), calls1)
        | some parent_transform =>
          some (Function.update out1 (some j) (some (parent_transform.mul
              (base_transform_of (H.baseLocalRotation j) (H.baseLocalPosition j)))),
            calls1 ++ [Call.get_BaseLocalRotation j, Call.get_BaseLocalPosition j]) := by
  unfold bind_parent at hp
  cases hi : (H.joint j).info with
  | none => simp [hi] at hp
  | some info =>
    rw [hi] at hp
    by_cases h1 : info.parentJoint = -1
    · simp [h1] at hp
    · simp [h1] at hp
      simp [calculate_base_transforms, h, hi, h1, hp]

omit [CommRing R] in
theorem countP_append_pair (l : List (Call R)) (a b : Call R) (f : Call R → Bool) :
    (l ++ [a, b]).countP f = l.countP f + ((if f a then 1 else 0) + (if f b then 1 else 0)) := by
  simp [List.countP_append, List.countP_cons]
  omega

/-- The guarantees of one memoized call, by induction on the fuel. -/
theorem cbts_post (H : Host R) (transform : Nat) (hinfo : InfoOk H) (rank : Nat → Nat)
    (hrank : ∀ j p, bind_parent H transform j = some p → rank p < rank j) :
    ∀ (fuel : Nat) (target : Option Nat), 0 < fuel → (∀ j, target = some j → rank j < fuel) →
      ∀ (out : Cache R) (calls : List (Call R)),
        ∃ out1 calls1, calculate_base_transforms H transform fuel target out calls
            = some (out1, calls1) ∧
          CbtsPost H transform rank target out calls out1 calls1 := by
  intro fuel
  induction fuel with
  | zero => intro target h; exact absurd h (Nat.lt_irrefl 0)
  | succ n ih =>
    intro target _ hfuel out calls
    cases hout : out target with
    | some m =>
      refine ⟨out, calls, cbts_hit H transform n target out calls m hout, ?_⟩
      exact
        { cached := by rw [hout]; simp
          mono := fun _ _ h => h
          frame := fun _ => Or.inl rfl
          valid := fun h => h
          closed := fun h => h
          reads := fun h => h
          extra := ⟨[], by simp, by simp⟩ }
    | none =>
      cases target with
      | none =>
        refine ⟨_, calls, cbts_null H transform n out calls hout, ?_⟩
        exact
          { cached := by simp
            mono := by
              intro k m h
              have hk : k ≠ none := by intro hk; rw [hk, hout] at h; cases h
              rw [Function.update_noteq hk]; exact h
            frame := by
              intro k
              cases k with
              | none => exact Or.inr ⟨hout, trivial⟩
              | some a => left; simp
            valid := by
              intro hv k m h
              cases k with
              | none =>
                simp at h
                exact ⟨1, [], by rw [cbt_null, h]⟩
              | some a =>
                simp at h
                exact hv _ _ h
            closed := by
              intro hc j p h1 h2
              simp at h1 ⊢
              exact hc j p h1 h2
            reads := by
              intro hr j
              simpa using hr j
            extra := ⟨[], by simp, by simp⟩ }
      | some t =>
        cases hp : bind_parent H transform t with
        | none =>
          refine ⟨_, calls, cbts_root H transform n t out calls hout (hinfo t) hp, ?_⟩
          exact
            { cached := by simp
              mono := by
                intro k m h
                have hk : k ≠ some t := by intro hk; rw [hk, hout] at h; cases h
                rw [Function.update_noteq hk]; exact h
              frame := by
                intro k
                by_cases hk : k = some t
                · subst hk; exact Or.inr ⟨hout, le_refl _⟩
                · left; rw [Function.update_noteq hk]
              valid := by
                intro hv k m h
                by_cases hk : k = some t
                · subst hk
                  simp at h
                  exact ⟨1, [], by rw [cbt_root H transform 0 t (hinfo t) hp, h]⟩
                · rw [Function.update_noteq hk] at h
                  exact hv _ _ h
              closed := by
                intro hc j p h1 h2
                have hj : j ≠ t := by intro hj; rw [hj, hp] at h2; cases h2
                have hj2 : (some j : Option Nat) ≠ some t := by simpa using hj
                rw [Function.update_noteq hj2] at h1
                have := hc j p h1 h2
                by_cases hpt : p = t
                · subst hpt; simp
                · have hp2 : (some p : Option Nat) ≠ some t := by simpa using hpt
                  rw [Function.update_noteq hp2]; exact this
              reads := by
                intro hr j
                by_cases hj : j = t
                · subst hj
                  have h0 := (hr j).2 (by rw [hout]; simp)
                  constructor
                  · intro hc; exact absurd hp hc.2
                  · intro _; exact h0
                · have hj2 : (some j : Option Nat) ≠ some t := by simpa using hj
                  rw [Function.update_noteq hj2]
                  exact hr j
              extra := ⟨[], by simp, by simp⟩ }
        | some p =>
          have hlt : rank p < rank t := hrank t p hp
          have ht : rank t < n + 1 := hfuel t rfl
          have hpn : rank p < n := by omega
          have hn : 0 < n := by omega
          obtain ⟨out1, calls1, hrun, post⟩ :=
            ih (some p) hn (by intro j hj; cases hj; exact hpn) out calls
          have hstep := cbts_step H transform n t p out calls hout hp
          rw [hrun] at hstep
          cases hpc : out1 (some p) with
          | none => exact absurd hpc post.cached
          | some pt =>
            simp only [hpc] at hstep
            have hpt_ne : (some p : Option Nat) ≠ some t := by
              intro h; cases h; exact Nat.lt_irrefl _ hlt
            have ht1 : out1 (some t) = none := by
              rcases post.frame (some t) with h | ⟨_, h⟩
              · rw [h, hout]
              · exact absurd h (by simp only [Below]; omega)
            refine ⟨_, _, hstep, ?_⟩
            exact
              { cached := by simp
                mono := by
                  intro k m h
                  have hk : k ≠ some t := by intro hk; rw [hk, hout] at h; cases h
                  rw [Function.update_noteq hk]; exact post.mono k m h
                frame := by
                  intro k
                  by_cases hk : k = some t
                  · subst hk; exact Or.inr ⟨hout, le_refl _⟩
                  · rw [Function.update_noteq hk]
                    rcases post.frame k with h | ⟨h1, h2⟩
                    · exact Or.inl h
                    · right
                      refine ⟨h1, ?_⟩
                      cases k with
                      | none => exact absurd h2 (by simp [Below])
                      | some a =>
                        simp only [Below] at h2 ⊢
                        omega
                valid := by
                  intro hv k m h
                  by_cases hk : k = some t
                  · subst hk
                    simp at h
                    obtain ⟨f, c, hf⟩ := post.valid hv (some p) pt hpc
                    refine ⟨f + 1,
                      c ++ [Call.get_BaseLocalRotation t, Call.get_BaseLocalPosition t], ?_⟩
                    rw [cbt_step H transform f t p hp, hf, ← h]
                  · rw [Function.update_noteq hk] at h
                    exact post.valid hv _ _ h
                closed := by
                  intro hc j q h1 h2
                  have hq : out1 (some q) ≠ none := by
                    by_cases hj : j = t
                    · subst hj
                      rw [hp] at h2; cases h2
                      rw [hpc]; simp
                    · have hj2 : (some j : Option Nat) ≠ some t := by simpa using hj
                      rw [Function.update_noteq hj2] at h1
                      exact post.closed hc j q h1 h2
                  by_cases hqt : q = t
                  · subst hqt; simp
                  · have hq2 : (some q : Option Nat) ≠ some t := by simpa using hqt
                    rw [Function.update_noteq hq2]; exact hq
                reads := by
                  intro hr j
                  have h1 := post.reads hr j
                  rw [countP_append_pair, countP_append_pair]
                  by_cases hj : j = t
                  · subst hj
                    have h0 := h1.2 (by rw [ht1]; simp)
                    simp only [Call.isBaseRotation, Call.isBasePosition, beq_self_eq_true,
                      if_true]
                    constructor
                    · intro _; constructor <;> simp [h0.1, h0.2]
                    · intro hc; exact absurd ⟨by simp, by rw [hp]; simp⟩ hc
                  · have hj2 : (some j : Option Nat) ≠ some t := by simpa using hj
                    have hb : (t == j) = false := by
                      simp only [beq_eq_false_iff_ne]; exact fun h => hj h.symm
                    rw [Function.update_noteq hj2]
                    simp only [Call.isBaseRotation, Call.isBasePosition, hb]
                    simpa using h1
                extra := by
                  obtain ⟨e, he, hm⟩ := post.extra
                  refine ⟨e ++ [Call.get_BaseLocalRotation t, Call.get_BaseLocalPosition t],
                    by rw [he, List.append_assoc], ?_⟩
                  intro c hc
                  rcases List.mem_append.mp hc with h | h
                  · exact hm c h
                  · simp at h
                    rcases h with h | h <;> subst h <;> rfl }

end CacheLemmas

/-! ## The sample skeleton is well formed -/

section SampleLemmas

theorem sample_infoOk : InfoOk sampleHost := by
  intro j
  match j with
  | 0 => simp [sampleHost]
  | 1 => simp [sampleHost]
  | 2 => simp [sampleHost]
  | 3 => simp [sampleHost]
  | 4 => simp [sampleHost]
  | n + 5 => simp [sampleHost]

theorem sample_parent_0 (t : Nat) : bind_parent sampleHost t 0 = none := by
  simp [bind_parent, sampleHost]

theorem sample_parent_1 (t : Nat) : bind_parent sampleHost t 1 = some 0 := by
  simp [bind_parent, sampleHost]

theorem sample_parent_2 (t : Nat) : bind_parent sampleHost t 2 = some 1 := by
  simp [bind_parent, sampleHost]

theorem sample_parent_3 (t : Nat) : bind_parent sampleHost t 3 = some 0 := by
  simp [bind_parent, sampleHost]

theorem sample_parent_4 (t : Nat) : bind_parent sampleHost t 4 = none := by
  simp [bind_parent, sampleHost]

theorem sample_parent_big (t n : Nat) : bind_parent sampleHost t (n + 5) = none := by
  simp [bind_parent, sampleHost]

theorem sample_depth (t fuel : Nat) (h : 3 ≤ fuel) : DepthBelow sampleHost t fuel := by
  refine ⟨sampleRank, ?_, ?_⟩
  · intro j p hp
    match j with
    | 0 => rw [sample_parent_0] at hp; cases hp
    | 1 => rw [sample_parent_1] at hp; cases hp; decide
    | 2 => rw [sample_parent_2] at hp; cases hp; decide
    | 3 => rw [sample_parent_3] at hp; cases hp; decide
    | 4 => rw [sample_parent_4] at hp; cases hp
    | n + 5 => rw [sample_parent_big] at hp; cases hp
  · intro j
    match j with
    | 0 => simp [sampleRank]; omega
    | 1 => simp [sampleRank]; omega
    | 2 => simp [sampleRank]; omega
    | 3 => simp [sampleRank]; omega
    | n + 4 => simp [sampleRank]; omega

end SampleLemmas

/-! ## Descending paths and reachability -/

section PathLemmas

variable {R : Type} [CommRing R]

omit [CommRing R] in
theorem reaches_cached (H : Host R) (transform : Nat) (out : Cache R)
    (hc : AncClosed H transform out) (j a : Nat) (hr : Reaches H transform j a)
    (hj : out (some j) ≠ none) : out (some a) ≠ none := by
  induction hr with
  | refl _ => exact hj
  | step j p a hp _ ih => exact ih (hc j p hj hp)

omit [CommRing R] in
theorem ancClosed_empty (H : Host R) (transform : Nat) :
    AncClosed H transform (Cache.empty : Cache R) := by
  intro j p h
  exact absurd rfl h

omit [CommRing R] in
theorem readsInv_empty (H : Host R) (transform : Nat) :
    ReadsInv H transform (Cache.empty : Cache R) [] := by
  intro j
  constructor
  · intro h; exact absurd rfl h.1
  · intro _; simp

theorem cacheValid_empty (H : Host R) (transform : Nat) :
    CacheValid H transform (Cache.empty : Cache R) := by
  intro k m h
  cases h

omit [CommRing R] in
theorem depthBelow_pos (H : Host R) (transform fuel : Nat)
    (h : DepthBelow H transform fuel) : 0 < fuel := by
  obtain ⟨rank, _, hb⟩ := h
  exact Nat.lt_of_le_of_lt (Nat.zero_le _) (hb 0)

/-- Filling an empty cache for two targets in turn: both calls succeed, the
cache holds every joint reached from either target, and the bind data of a
joint reached from the first target has been read once if it has a parent
and never if it has none. -/
theorem two_calls_reads (H : Host R) (transform fuel : Nat) (hinfo : InfoOk H)
    (hdepth : DepthBelow H transform fuel) (t1 t2 a : Nat)
    (h1 : Reaches H transform t1 a) :
    ∃ out1 calls1 out2 calls2,
      calculate_base_transforms H transform fuel (some t1) Cache.empty [] = some (out1, calls1) ∧
      calculate_base_transforms H transform fuel (some t2) out1 calls1 = some (out2, calls2) ∧
      (bind_parent H transform a ≠ none →
        calls2.countP (Call.isBaseRotation a) = 1 ∧ calls2.countP (Call.isBasePosition a) = 1) ∧
      (bind_parent H transform a = none →
        calls2.countP (Call.isBaseRotation a) = 0 ∧ calls2.countP (Call.isBasePosition a) = 0) := by
  have hpos := depthBelow_pos H transform fuel hdepth
  obtain ⟨rank, hrank, hb⟩ := hdepth
  obtain ⟨out1, calls1, hrun1, post1⟩ :=
    cbts_post H transform hinfo rank hrank fuel (some t1) hpos (fun j _ => hb j) Cache.empty []
  obtain ⟨out2, calls2, hrun2, post2⟩ :=
    cbts_post H transform hinfo rank hrank fuel (some t2) hpos (fun j _ => hb j) out1 calls1
  refine ⟨out1, calls1, out2, calls2, hrun1, hrun2, ?_, ?_⟩
  · intro hp
    have ha1 : out1 (some a) ≠ none :=
      reaches_cached H transform out1 (post1.closed (ancClosed_empty H transform)) t1 a h1
        post1.cached
    have ha2 : out2 (some a) ≠ none := by
      cases h : out1 (some a) with
      | none => exact absurd h ha1
      | some m => rw [post2.mono _ _ h]; simp
    exact ((post2.reads (post1.reads (readsInv_empty H transform))) a).1 ⟨ha2, hp⟩
  · intro hp
    exact ((post2.reads (post1.reads (readsInv_empty H transform))) a).2
      (fun h => h.2 hp)

end PathLemmas

/-! ## Bind-pose transform cache: the claims -/

section BindClaims

variable {R : Type} [CommRing R]

/-- C6: `calculate_base_transform` returns the 4x4 identity matrix, without
fault and without any read of the joint's bind local rotation or position
(the list of calls is empty), for a null joint, for a joint whose parent
index is `-1`, and for a joint whose parent index is not `-1` but whose
parent lookup yields no joint. -/
theorem calculate_base_transform_without_parent (H : Host R) (transform fuel : Nat)
    (target : Option Nat)
    (h : target = none ∨ ∃ j info, target = some j ∧ (H.joint j).info = some info ∧
      (info.parentJoint = -1 ∨ H.get_joint transform info.parentJoint = none)) :
    calculate_base_transform H transform (fuel + 1) target = some (Mat4.identity, []) := by
  rcases h with h | ⟨j, info, h1, h2, h3⟩
  · rw [h, cbt_null]
  · rw [h1]
    apply cbt_root H transform fuel j (by rw [h2]; simp)
    unfold bind_parent
    rw [h2]
    rcases h3 with h3 | h3
    · simp [h3]
    · by_cases h4 : info.parentJoint = -1
      · simp [h4]
      · simp [h4, h3]

theorem calculate_base_transform_without_parent_witness :
    calculate_base_transform sampleHost 0 (0 + 1) (some 4) = some (Mat4.identity, []) :=
  calculate_base_transform_without_parent sampleHost 0 0 (some 4)
    (Or.inr ⟨4, ⟨9⟩, rfl, rfl, Or.inr rfl⟩)

/-- C7 (as amended): in an acyclic hierarchy, filling one empty cache by
`calculate_base_transforms` for a first target and then for a second one
reads the bind data of a common ancestor exactly once in total when that
ancestor has a resolvable parent, and never when it has none. -/
theorem shared_ancestor_read_once (H : Host R) (transform fuel : Nat) (hinfo : InfoOk H)
    (hdepth : DepthBelow H transform fuel) (t1 t2 a : Nat)
    (h1 : Reaches H transform t1 a) (_h2 : Reaches H transform t2 a) :
    ∃ out1 calls1 out2 calls2,
      calculate_base_transforms H transform fuel (some t1) Cache.empty [] = some (out1, calls1) ∧
      calculate_base_transforms H transform fuel (some t2) out1 calls1 = some (out2, calls2) ∧
      calls2.countP (Call.isBaseRotation a)
        = (if (bind_parent H transform a).isSome then 1 else 0) ∧
      calls2.countP (Call.isBasePosition a)
        = (if (bind_parent H transform a).isSome then 1 else 0) := by
  obtain ⟨out1, calls1, out2, calls2, r1, r2, hs, hn⟩ :=
    two_calls_reads H transform fuel hinfo hdepth t1 t2 a h1
  refine ⟨out1, calls1, out2, calls2, r1, r2, ?_⟩
  cases hp : bind_parent H transform a with
  | none => simpa using hn hp
  | some p => simpa using hs (by rw [hp]; simp)

theorem shared_ancestor_read_once_witness :
    ∃ out1 calls1 out2 calls2,
      calculate_base_transforms sampleHost 0 3 (some 2) Cache.empty [] = some (out1, calls1) ∧
      calculate_base_transforms sampleHost 0 3 (some 1) out1 calls1 = some (out2, calls2) ∧
      calls2.countP (Call.isBaseRotation 1)
        = (if (bind_parent sampleHost 0 1).isSome then 1 else 0) ∧
      calls2.countP (Call.isBasePosition 1)
        = (if (bind_parent sampleHost 0 1).isSome then 1 else 0) :=
  shared_ancestor_read_once sampleHost 0 3 sample_infoOk (sample_depth 0 3 (le_refl 3)) 2 1 1
    (Reaches.step 2 1 1 (sample_parent_2 0) (Reaches.refl 1)) (Reaches.refl 1)

/-- C7 fails as stated: joints `1` and `3` of the sample skeleton share the
ancestor `0`, which is a root; after the cache is filled for `1` and then for
`3`, the bind data of `0` has been read zero times, not once. -/
theorem common_ancestor_without_parent_unread :
    Reaches sampleHost 0 1 0 ∧ Reaches sampleHost 0 3 0 ∧
    ∃ out1 calls1 out2 calls2,
      calculate_base_transforms sampleHost 0 3 (some 1) Cache.empty [] = some (out1, calls1) ∧
      calculate_base_transforms sampleHost 0 3 (some 3) out1 calls1 = some (out2, calls2) ∧
      calls2.countP (Call.isBaseRotation 0) = 0 ∧
      calls2.countP (Call.isBasePosition 0) = 0 := by
  have hr1 : Reaches sampleHost 0 1 0 := Reaches.step 1 0 0 (sample_parent_1 0) (Reaches.refl 0)
  have hr3 : Reaches sampleHost 0 3 0 := Reaches.step 3 0 0 (sample_parent_3 0) (Reaches.refl 0)
  obtain ⟨out1, calls1, out2, calls2, r1, r2, _, hn⟩ :=
    two_calls_reads sampleHost 0 3 sample_infoOk (sample_depth 0 3 (le_refl 3)) 1 3 0 hr1
  exact ⟨hr1, hr3, out1, calls1, out2, calls2, r1, r2, hn (sample_parent_0 0)⟩

/-- C9 (as amended): in an acyclic hierarchy, for a cache whose entries all
equal `calculate_base_transform` of their key and which holds, with any
joint, that joint's resolvable parent (the empty cache in particular),
`calculate_base_transforms target` succeeds, after it the cache holds an
entry for the target and for every ancestor reached through successful
parent lookups, and every entry equals `calculate_base_transform` of its key. -/
theorem calculate_base_transforms_agrees (H : Host R) (transform fuel : Nat)
    (hinfo : InfoOk H) (hdepth : DepthBelow H transform fuel) (target : Option Nat)
    (out : Cache R) (calls : List (Call R))
    (hvalid : CacheValid H transform out) (hclosed : AncClosed H transform out) :
    ∃ out1 calls1,
      calculate_base_transforms H transform fuel target out calls = some (out1, calls1) ∧
      out1 target ≠ none ∧
      (∀ j a, target = some j → Reaches H transform j a → out1 (some a) ≠ none) ∧
      ∀ k m, out1 k = some m →
        ∃ c, calculate_base_transform H transform fuel k = some (m, c) := by
  have hpos := depthBelow_pos H transform fuel hdepth
  obtain ⟨rank, hrank, hb⟩ := hdepth
  obtain ⟨out1, calls1, hrun, post⟩ :=
    cbts_post H transform hinfo rank hrank fuel target hpos (fun j _ => hb j) out calls
  refine ⟨out1, calls1, hrun, post.cached, ?_, ?_⟩
  · intro j a hj hr
    subst hj
    exact reaches_cached H transform out1 (post.closed hclosed) j a hr post.cached
  · intro k m hk
    obtain ⟨f, c, hf⟩ := post.valid hvalid k m hk
    cases k with
    | none =>
      obtain ⟨n, rfl⟩ := Nat.exists_eq_succ_of_ne_zero (Nat.pos_iff_ne_zero.mp hpos)
      have h0 := cbt_null H transform n
      have := cbt_fuel_indep H transform none _ _ hf h0
      exact ⟨c, by rw [h0, ← this]⟩
    | some j =>
      obtain ⟨r, hr⟩ := cbt_total H transform hinfo rank hrank fuel j (hb j)
      have := cbt_fuel_indep H transform (some j) _ _ hf hr
      exact ⟨c, by rw [hr, ← this]⟩

theorem calculate_base_transforms_agrees_witness :
    ∃ out1 calls1,
      calculate_base_transforms sampleHost 0 3 (some 2) Cache.empty [] = some (out1, calls1) ∧
      out1 (some 2) ≠ none ∧
      (∀ j a, some 2 = some j → Reaches sampleHost 0 j a → out1 (some a) ≠ none) ∧
      ∀ k m, out1 k = some m →
        ∃ c, calculate_base_transform sampleHost 0 3 k = some (m, c) :=
  calculate_base_transforms_agrees sampleHost 0 3 sample_infoOk (sample_depth 0 3 (le_refl 3))
    (some 2) Cache.empty [] (cacheValid_empty sampleHost 0) (ancClosed_empty sampleHost 0)

/-- C9 fails as stated: the cache holding only the bind matrix of joint `1`
has every entry equal to `calculate_base_transform` of its key, yet after
`calculate_base_transforms` for joint `1` it still has no entry for joint
`0`, the parent of `1`. -/
theorem calculate_base_transforms_skips_ancestor :
    CacheValid sampleHost 0 sampleCache ∧ Reaches sampleHost 0 1 0 ∧
    ∃ out1 calls1,
      calculate_base_transforms sampleHost 0 3 (some 1) sampleCache [] = some (out1, calls1) ∧
      out1 (some 0) = none := by
  refine ⟨?_, Reaches.step 1 0 0 (sample_parent_1 0) (Reaches.refl 0), sampleCache, [], ?_, ?_⟩
  · intro k m hk
    unfold sampleCache at hk
    by_cases h1 : k = some 1
    · subst h1
      simp at hk
      refine ⟨2, [Call.get_BaseLocalRotation 1, Call.get_BaseLocalPosition 1], ?_⟩
      rw [cbt_step sampleHost 0 1 1 0 (sample_parent_1 0),
        cbt_root sampleHost 0 0 0 (sample_infoOk 0) (sample_parent_0 0)]
      simp only [identity_mul, List.nil_append]
      rw [← hk]
      rfl
    · simp [h1] at hk
  · exact cbts_hit sampleHost 0 2 (some 1) sampleCache []
      (base_transform_of Quat.identity ⟨0, 1, 0, 1⟩) (by simp [sampleCache])
  · simp [sampleCache]

end BindClaims

/-! ## The first loop of the retargeting -/

section FirstPass

variable {R : Type} [CommRing R]

theorem bind_matrix_eq (H : Host R) (transform fuel j : Nat) (hinfo : InfoOk H)
    (rank : Nat → Nat)
    (hrank : ∀ j p, bind_parent H transform j = some p → rank p < rank j)
    (hb : ∀ j, rank j < fuel) (f : Nat) (m : Mat4 R) (c : List (Call R))
    (h : calculate_base_transform H transform f (some j) = some (m, c)) :
    bind_matrix H transform fuel j = m := by
  obtain ⟨r, hr⟩ := cbt_total H transform hinfo rank hrank fuel j (hb j)
  have := cbt_fuel_indep H transform (some j) _ _ h hr
  unfold bind_matrix
  rw [hr, ← this]

theorem bind_matrix_spec (H : Host R) (transform fuel j : Nat) (hinfo : InfoOk H)
    (hdepth : DepthBelow H transform fuel) :
    ∃ c, calculate_base_transform H transform fuel (some j)
      = some (bind_matrix H transform fuel j, c) := by
  obtain ⟨rank, hrank, hb⟩ := hdepth
  obtain ⟨r, hr⟩ := cbt_total H transform hinfo rank hrank fuel j (hb j)
  refine ⟨r.2, ?_⟩
  unfold bind_matrix
  rw [hr]

theorem first_pass_step_inv (H : Host R) (transform fuel : Nat) (hinfo : InfoOk H)
    (rank : Nat → Nat)
    (hrank : ∀ j p, bind_parent H transform j = some p → rank p < rank j)
    (hb : ∀ j, rank j < fuel) (w0 : World R) (js : List (Option Nat))
    (pp : Vector4f R) (q : Quat R) (i : Nat) (s : TposeFrame R)
    (inv : FirstInv H transform fuel w0 js pp q i s) :
    ∃ s1, first_pass_step H transform fuel pp q i s = some s1 ∧
      FirstInv H transform fuel w0 js pp q (i + 1) s1 := by
  have hpos : 0 < fuel := Nat.lt_of_le_of_lt (Nat.zero_le _) (hb 0)
  unfold first_pass_step
  rw [inv.joints]
  cases hj : js.getD i none with
  | none =>
    refine ⟨s, rfl, ?_⟩
    exact
      { joints := inv.joints, jpos := inv.jpos, jrot := inv.jrot, tpos := inv.tpos,
        trot := inv.trot, calls := inv.calls, valid := inv.valid
        done := by
          intro m j hm hmj
          rcases Nat.lt_succ_iff_lt_or_eq.mp hm with h | h
          · exact inv.done m j h hmj
          · subst h; rw [hj] at hmj; cases hmj }
  | some j =>
    obtain ⟨out, calls1, hrun, post⟩ :=
      cbts_post H transform hinfo rank hrank fuel (some j) hpos (fun k _ => hb k)
        s.base_transforms s.world.calls
    simp only [hrun]
    cases hm : out (some j) with
    | none => exact absurd hm post.cached
    | some M =>
      simp only
      obtain ⟨f, c, hf⟩ := post.valid inv.valid (some j) M hm
      have hM := bind_matrix_eq H transform fuel j hinfo rank hrank hb f M c hf
      refine ⟨_, rfl, ?_⟩
      exact
        { joints := rfl
          jpos := inv.jpos
          jrot := inv.jrot
          tpos := inv.tpos
          trot := inv.trot
          calls := by
            obtain ⟨e0, he0, hm0⟩ := inv.calls
            obtain ⟨e1, he1, hm1⟩ := post.extra
            refine ⟨e0 ++ e1 ++ [Call.get_joint_position j], ?_, ?_⟩
            · simp [get_joint_position, he1, he0]
            · intro c hc
              simp only [List.mem_append, List.mem_singleton] at hc
              rcases hc with (h | h) | h
              · exact hm0 c h
              · exact hm1 c h
              · subst h; rfl
          valid := post.valid inv.valid
          done := by
            intro m k hlt hmk
            rcases Nat.lt_succ_iff_lt_or_eq.mp hlt with h | h
            · have hne : m ≠ i := Nat.ne_of_lt h
              simp only [Function.update_noteq hne]
              exact inv.done m k h hmk
            · subst h
              rw [hj] at hmk
              cases hmk
              simp [Function.update_same, hM, get_joint_position, inv.jpos] }

theorem first_pass_inv (H : Host R) (transform fuel : Nat) (hinfo : InfoOk H)
    (rank : Nat → Nat)
    (hrank : ∀ j p, bind_parent H transform j = some p → rank p < rank j)
    (hb : ∀ j, rank j < fuel) (w0 : World R) (js : List (Option Nat))
    (pp : Vector4f R) (q : Quat R) :
    ∀ (n i : Nat) (s : TposeFrame R), FirstInv H transform fuel w0 js pp q i s →
      ∃ s1, first_pass H transform fuel pp q n i s = some s1 ∧
        FirstInv H transform fuel w0 js pp q (i + n) s1 := by
  intro n
  induction n with
  | zero => intro i s inv; exact ⟨s, rfl, inv⟩
  | succ n ih =>
    intro i s inv
    obtain ⟨s1, h1, inv1⟩ :=
      first_pass_step_inv H transform fuel hinfo rank hrank hb w0 js pp q i s inv
    obtain ⟨s2, h2, inv2⟩ := ih (i + 1) s1 inv1
    refine ⟨s2, ?_, ?_⟩
    · simp only [first_pass, h1]; exact h2
    · have : i + (n + 1) = i + 1 + n := by omega
      rw [this]; exact inv2

end FirstPass

/-! ## The second loop of the retargeting -/

section SecondPass

variable {R : Type} [CommRing R]

theorem second_pass_step_nolink (i : Nat) (s : TposeFrame R)
    (h : s.joints.getD i none = none ∨ s.joints.getD (i + 1) none = none) :
    second_pass_step i s = s := by
  unfold second_pass_step
  rcases h with h | h
  · rw [h]
  · cases hi : s.joints.getD i none with
    | none => rfl
    | some a => simp only [h]

theorem second_pass_step_link (i : Nat) (s : TposeFrame R) (a b : Nat)
    (ha : s.joints.getD i none = some a) (hb : s.joints.getD (i + 1) none = some b) :
    second_pass_step i s =
      { s with
        current_positions := Function.update s.current_positions (i + 1)
          (s.current_positions i + (s.original_positions (i + 1) - s.original_positions i))
        world := set_joint_rotation
          (set_joint_position s.world b
            (Vector4f.ofVec3
              (s.current_positions i + (s.original_positions (i + 1) - s.original_positions i))
              1))
          b (s.original_rotations (i + 1)) } := by
  unfold second_pass_step
  simp only [ha, hb]
  rfl

theorem second_pass_post :
    ∀ (n i : Nat) (s : TposeFrame R), SecondPost i n s (second_pass n i s) := by
  intro n
  induction n with
  | zero =>
    intro i s
    exact
      { joints := rfl, opos := rfl, orot := rfl, tpos := rfl, trot := rfl
        cur_low := fun _ _ => rfl
        cur_link := fun m _ _ h1 h2 => absurd h2 (by omega)
        cur_nolink := fun _ _ _ => rfl
        calls := ⟨[], by simp [second_pass]⟩
        untouched := fun _ _ => ⟨rfl, rfl, rfl⟩
        written := fun m _ _ h1 h2 => absurd h2 (by omega) }
  | succ n ih =>
    intro i s
    have hrec : second_pass (n + 1) i s = second_pass n (i + 1) (second_pass_step i s) := rfl
    rw [hrec]
    have IH := ih (i + 1) (second_pass_step i s)
    by_cases hl : s.joints.getD i none = none ∨ s.joints.getD (i + 1) none = none
    · -- nothing is written at index `i`
      rw [second_pass_step_nolink i s hl] at IH ⊢
      have hne : ∀ m a b, s.joints.getD m none = some a → s.joints.getD (m + 1) none = some b →
          m ≠ i := by
        intro m a b h1 h2 hm
        subst hm
        rcases hl with h | h
        · rw [h] at h1; cases h1
        · rw [h] at h2; cases h2
      exact
        { joints := IH.joints, opos := IH.opos, orot := IH.orot, tpos := IH.tpos
          trot := IH.trot
          cur_low := fun m hm => IH.cur_low m (by omega)
          cur_link := by
            intro m a b h1 h2 h3 h4
            have := hne m a b h3 h4
            exact IH.cur_link m a b (by omega) (by omega) h3 h4
          cur_nolink := by
            intro m h1 h2
            by_cases hm : m = i
            · subst hm; exact IH.cur_low (m + 1) (le_refl _)
            · exact IH.cur_nolink m (by omega) (fun h => h2 (by omega))
          calls := IH.calls
          untouched := by
            intro j hj
            exact IH.untouched j (fun m a h1 h2 => hj m a (by omega) (by omega))
          written := by
            intro m a b h1 h2 h3 h4
            have := hne m a b h3 h4
            obtain ⟨w1, w2, w3⟩ := IH.written m a b (by omega) (by omega) h3 h4
            exact ⟨w1, w2, fun hk => w3 (fun k c k1 k2 => hk k c k1 (by omega))⟩ }
    · -- the joint at `i + 1` is written
      have hl1 : ∃ a, s.joints.getD i none = some a := by
        cases h : s.joints.getD i none with
        | none => exact absurd (Or.inl h) hl
        | some a => exact ⟨a, rfl⟩
      have hl2 : ∃ b, s.joints.getD (i + 1) none = some b := by
        cases h : s.joints.getD (i + 1) none with
        | none => exact absurd (Or.inr h) hl
        | some b => exact ⟨b, rfl⟩
      obtain ⟨a0, ha0⟩ := hl1
      obtain ⟨b0, hb0⟩ := hl2
      have hstep := second_pass_step_link i s a0 b0 ha0 hb0
      generalize hv : s.current_positions i
        + (s.original_positions (i + 1) - s.original_positions i) = v at hstep
      generalize second_pass_step i s = t at hstep IH ⊢
      generalize second_pass n (i + 1) t = s1 at IH ⊢
      subst hstep
      have hcur1 : s1.current_positions (i + 1) = v := by
        rw [IH.cur_low (i + 1) (le_refl _)]; simp
      have hcur0 : s1.current_positions i = s.current_positions i := by
        rw [IH.cur_low i (by omega)]
        simp
      exact
        { joints := IH.joints, opos := IH.opos, orot := IH.orot
          tpos := IH.tpos
          trot := IH.trot
          cur_low := by
            intro m hm
            rw [IH.cur_low m (by omega)]
            have : m ≠ i + 1 := by omega
            simp [Function.update_noteq this]
          cur_link := by
            intro m a b h1 h2 h3 h4
            by_cases hm : m = i
            · subst hm
              rw [hcur1, hcur0, hv]
            · exact IH.cur_link m a b (by omega) (by omega) h3 h4
          cur_nolink := by
            intro m h1 h2
            by_cases hm : m = i
            · subst hm
              rcases h2 (by omega) with h | h
              · rw [h] at ha0; cases ha0
              · rw [h] at hb0; cases hb0
            · rw [IH.cur_nolink m (by omega) (fun h => h2 (by omega))]
              have : m + 1 ≠ i + 1 := by omega
              simp [Function.update_noteq this]
          calls := by
            obtain ⟨e, he⟩ := IH.calls
            refine ⟨[Call.set_joint_position b0 (Vector4f.ofVec3 v 1),
              Call.set_joint_rotation b0 (s.original_rotations (i + 1))] ++ e, ?_⟩
            rw [he]
            simp [set_joint_rotation, set_joint_position]
          untouched := by
            intro j hj
            have hbj : b0 ≠ j := by
              intro h
              exact hj i a0 (le_refl _) (by omega) ha0 (by rw [hb0, h])
            obtain ⟨u1, u2, u3⟩ :=
              IH.untouched j (fun m a h1 h2 => hj m a (by omega) (by omega))
            have hjb : j ≠ b0 := fun h => hbj h.symm
            refine ⟨?_, ?_, ?_⟩
            · rw [u1]; simp [set_joint_rotation, set_joint_position, Function.update_noteq hjb]
            · rw [u2]; simp [set_joint_rotation, set_joint_position, Function.update_noteq hjb]
            · rw [u3]
              simp [set_joint_rotation, set_joint_position, List.filter_append, List.filter_cons,
                Call.isWriteTo, hbj]
          written := by
            intro m a b h1 h2 h3 h4
            by_cases hm : m = i
            · subst hm
              rw [hb0] at h4
              cases h4
              obtain ⟨e, he⟩ := IH.calls
              refine ⟨?_, ?_, ?_⟩
              · rw [hcur1, he]
                simp [set_joint_rotation, set_joint_position]
              · rw [he]
                simp [set_joint_rotation, set_joint_position]
              · intro hk
                obtain ⟨u1, u2, _⟩ :=
                  IH.untouched b0 (fun k c k1 k2 => hk k c (by omega) (by omega))
                rw [u1, u2, hcur1]
                simp [set_joint_rotation, set_joint_position]
            · obtain ⟨w1, w2, w3⟩ := IH.written m a b (by omega) (by omega) h3 h4
              exact ⟨w1, w2, fun hk => w3 (fun k c k1 k2 => hk k c k1 (by omega))⟩ }

end SecondPass

/-! ## A whole run of the retargeting -/

section Run

variable {R : Type} [CommRing R]

omit [CommRing R] in
theorem getD_some_lt (js : List (Option Nat)) :
    ∀ (m x : Nat), js.getD m none = some x → m < js.length := by
  induction js with
  | nil => intro m x h; simp at h
  | cons h t ih =>
    intro m x hm
    cases m with
    | zero => simp
    | succ m =>
      have := ih m x (by simpa using hm)
      simp; omega

omit [CommRing R] in
theorem filter_writes_of_not_mutation (j : Nat) (e : List (Call R))
    (h : ∀ c ∈ e, Call.isMutation c = false) : e.filter (Call.isWriteTo j) = [] := by
  rw [List.filter_eq_nil_iff]
  intro c hc hw
  have := h c hc
  cases c <;> simp [Call.isMutation, Call.isWriteTo] at this hw

theorem apply_run_post (H : Host R) (transform fuel : Nat) (w : World R) (hinfo : InfoOk H)
    (hdepth : DepthBelow H transform fuel) (j0 : Nat) (rest : List (Option Nat))
    (additional_parents : Nat) :
    ∃ s, apply_joints_tpose H fuel w transform (some j0 :: rest) additional_parents = some s ∧
      RunPost H transform fuel w (processed_joints H (some j0 :: rest) additional_parents) s := by
  obtain ⟨rank, hrank, hb⟩ := hdepth
  generalize hjs : processed_joints H (some j0 :: rest) additional_parents = js
  have hjs2 : insert_additional_parents H additional_parents
      (get_joint_parent H ((some j0 :: rest).headD none) :: some j0 :: rest) = js := hjs
  let w1 : World R := (get_transform_rotation (get_transform_position w transform).2 transform).2
  let s0 : TposeFrame R :=
    { joints := js
      original_positions := fun _ => 0
      original_rotations := fun _ => 0
      current_positions := fun _ => 0
      base_transforms := Cache.empty
      world := w1 }
  have inv0 : FirstInv H transform fuel w1 js (w.transform_position transform)
      (w.transform_rotation transform) 0 s0 :=
    { joints := rfl, jpos := rfl, jrot := rfl, tpos := rfl, trot := rfl
      calls := ⟨[], by simp [s0], by simp⟩
      valid := cacheValid_empty H transform
      done := fun m _ h => absurd h (Nat.not_lt_zero m) }
  obtain ⟨s1, hfirst, inv1⟩ :=
    first_pass_inv H transform fuel hinfo rank hrank hb w1 js (w.transform_position transform)
      (w.transform_rotation transform) js.length 0 s0 inv0
  have post := second_pass_post (js.length - 1) 0 s1
  refine ⟨second_pass (js.length - 1) 0 s1, ?_, ?_⟩
  · simp only [apply_joints_tpose, hjs2]
    have : first_pass H transform fuel (get_transform_position w transform).1
        (get_transform_rotation (get_transform_position w transform).2 transform).1
        js.length 0 s0 = some s1 := hfirst
    rw [this]
  · have hj1 : s1.joints = js := inv1.joints
    have hw1p : w1.joint_position = w.joint_position := rfl
    have hw1r : w1.joint_rotation = w.joint_rotation := rfl
    have hrange : ∀ m x, js.getD (m + 1) none = some x → m < 0 + (js.length - 1) := by
      intro m x h
      have := getD_some_lt js (m + 1) x h
      omega
    have hdiff : ∀ m a b, js.getD m none = some a → js.getD (m + 1) none = some b →
        s1.original_positions (m + 1) - s1.original_positions m
          = (w.transform_rotation transform).rotate
              ((bind_matrix H transform fuel b).c3.xyz
                - (bind_matrix H transform fuel a).c3.xyz) := by
      intro m a b ha hb2
      have la := getD_some_lt js (m + 1) b hb2
      obtain ⟨oa, _, _⟩ := inv1.done m a (by omega) ha
      obtain ⟨ob, _, _⟩ := inv1.done (m + 1) b (by omega) hb2
      rw [oa, ob, original_position_sub]
    exact
      { joints := by rw [post.joints, hj1]
        tpos := by rw [post.tpos, inv1.tpos]; rfl
        trot := by rw [post.trot, inv1.trot]; rfl
        cur_first := by
          intro x hx
          rw [post.cur_low 0 (le_refl _)]
          have := getD_some_lt js 0 x hx
          rw [(inv1.done 0 x (by omega) hx).2.2]
          rfl
        cur_link := by
          intro m a b ha hb2
          rw [post.cur_link m a b (Nat.zero_le _) (hrange m b hb2) (by rw [hj1]; exact ha)
            (by rw [hj1]; exact hb2), hdiff m a b ha hb2]
        cur_nolink := by
          intro m b hn hb2
          rw [post.cur_nolink m (Nat.zero_le _) (fun _ => Or.inl (by rw [hj1]; exact hn))]
          have := getD_some_lt js (m + 1) b hb2
          rw [(inv1.done (m + 1) b (by omega) hb2).2.2]
          rfl
        untouched := by
          intro j hj
          obtain ⟨u1, u2, u3⟩ := post.untouched j
            (fun m a _ _ h1 => hj m a (by rw [← hj1]; exact h1) |> fun h => by rw [hj1]; exact h)
          obtain ⟨e, he, hm⟩ := inv1.calls
          refine ⟨by rw [u1, inv1.jpos]; rfl, by rw [u2, inv1.jrot]; rfl, ?_⟩
          rw [u3, he, List.filter_append, filter_writes_of_not_mutation j e hm]
          simp [w1, get_transform_rotation, get_transform_position, List.filter_append,
            Call.isWriteTo]
        written := by
          intro m a b ha hb2
          have la := getD_some_lt js (m + 1) b hb2
          obtain ⟨x1, x2, x3⟩ := post.written m a b (Nat.zero_le _) (hrange m b hb2)
            (by rw [hj1]; exact ha) (by rw [hj1]; exact hb2)
          have hor := (inv1.done (m + 1) b (by omega) hb2).2.1
          rw [hor] at x2 x3
          refine ⟨x1, x2, fun hk => x3 ?_⟩
          intro k c h1 _ h3
          rw [hj1] at h3 ⊢
          exact hk k c h1 h3 }

end Run

/-! ## The processed chain -/

section Chain

variable {R : Type}

theorem insert_additional_parents_chain (H : Host R) :
    ∀ (n a : Nat) (anc : List Nat) (rest : List (Option Nat)), ParentChain H a anc →
      insert_additional_parents H n (some a :: rest)
        = ((anc.take n).reverse.map some) ++ (some a :: rest) := by
  intro n
  induction n with
  | zero => intro a anc rest _; simp [insert_additional_parents]
  | succ n ih =>
    intro a anc rest h
    cases anc with
    | nil =>
      have h0 : get_joint_parent H (some a) = none := h
      simp [insert_additional_parents, h0]
    | cons p ps =>
      obtain ⟨h1, h2⟩ := h
      simp only [insert_additional_parents, List.headD_cons, h1]
      rw [ih p ps (some a :: rest) h2]
      simp

theorem insert_additional_parents_null (H : Host R) (n : Nat) (rest : List (Option Nat)) :
    insert_additional_parents H n (none :: rest) = none :: rest := by
  cases n with
  | zero => rfl
  | succ n => simp [insert_additional_parents, get_joint_parent]

/-- The processed chain: with ancestors `anc` of the first joint (nearest
first), one more than `additional_parents` of them are put in front, as far
as they exist; a first joint without parent gets a null entry in front. -/
theorem processed_joints_eq (H : Host R) (j0 : Nat) (rest : List (Option Nat)) (n : Nat)
    (anc : List Nat) (h : ParentChain H j0 anc) :
    processed_joints H (some j0 :: rest) n
      = (if anc = [] then [none] else ((anc.take (n + 1)).reverse.map some))
          ++ (some j0 :: rest) := by
  unfold processed_joints
  cases anc with
  | nil =>
    have h0 : get_joint_parent H (some j0) = none := h
    simp [h0, insert_additional_parents_null]
  | cons p ps =>
    obtain ⟨h1, h2⟩ := h
    simp only [List.headD_cons, h1]
    rw [insert_additional_parents_chain H n p ps (some j0 :: rest) h2]
    simp

theorem insert_additional_parents_length (H : Host R) :
    ∀ (n : Nat) (js : List (Option Nat)),
      js.length ≤ (insert_additional_parents H n js).length := by
  intro n
  induction n with
  | zero => intro js; exact le_refl _
  | succ n ih =>
    intro js
    simp only [insert_additional_parents]
    cases get_joint_parent H (js.headD none) with
    | none => exact le_refl _
    | some p =>
      have := ih (some p :: js)
      simp at this ⊢
      omega

theorem processed_joints_length (H : Host R) (chain : List (Option Nat)) (n : Nat) :
    chain.length + 1 ≤ (processed_joints H chain n).length := by
  unfold processed_joints
  have := insert_additional_parents_length H n
    (get_joint_parent H (chain.headD none) :: chain)
  simpa using this

theorem getD_some_mem (js : List (Option Nat)) :
    ∀ (m x : Nat), js.getD m none = some x → x ∈ js.reduceOption := by
  induction js with
  | nil => intro m x h; simp at h
  | cons h t ih =>
    intro m x hm
    cases m with
    | zero =>
      simp at hm
      subst hm
      simp [List.reduceOption_cons_of_some]
    | succ m =>
      have := ih m x (by simpa using hm)
      cases h with
      | none => simpa [List.reduceOption_cons_of_none] using this
      | some y => simp [List.reduceOption_cons_of_some, this]

/-- Pairwise distinct non-null entries sit at distinct indices. -/
theorem distinct_of_nodup (js : List (Option Nat)) (h : js.reduceOption.Nodup) :
    ∀ (a b x : Nat), js.getD a none = some x → js.getD b none = some x → a = b := by
  induction js with
  | nil => intro a b x ha; simp at ha
  | cons y t ih =>
    intro a b x ha hb
    have ht : t.reduceOption.Nodup := by
      cases y with
      | none => simpa [List.reduceOption_cons_of_none] using h
      | some z =>
        rw [List.reduceOption_cons_of_some] at h
        exact (List.nodup_cons.mp h).2
    cases a with
    | zero =>
      cases b with
      | zero => rfl
      | succ b =>
        simp at ha
        subst ha
        have hm := getD_some_mem t b x (by simpa using hb)
        rw [List.reduceOption_cons_of_some] at h
        exact absurd hm (List.nodup_cons.mp h).1
    | succ a =>
      cases b with
      | zero =>
        simp at hb
        subst hb
        have hm := getD_some_mem t a x (by simpa using ha)
        rw [List.reduceOption_cons_of_some] at h
        exact absurd hm (List.nodup_cons.mp h).1
      | succ b =>
        have := ih ht a b x (by simpa using ha) (by simpa using hb)
        omega

end Chain

/-! ## Chain retargeting: the claims -/

section TposeClaims

variable {R : Type} [CommRing R]

theorem sample_processed_1 :
    processed_joints sampleHost [some 1, some 2] 0 = [some 0, some 1, some 2] := by
  rfl

theorem sample_processed_2 :
    processed_joints sampleHost [some 1] 0 = [some 0, some 1] := by
  rfl

/-- C4: when the chain is empty or its first element is null, whatever
`additional_parents` is, `apply_joints_tpose` returns without any call of
`set_joint_position` or `set_joint_rotation`, every joint keeps its live
position and rotation, and the only call made is the diagnostic
`spdlog::info("No joints to apply tpose")`. -/
theorem apply_joints_tpose_no_joints (H : Host R) (fuel : Nat) (w : World R)
    (transform : Nat) (joints_initial : List (Option Nat)) (additional_parents : Nat)
    (h : joints_initial = [] ∨ joints_initial.head? = some none) :
    ∃ s, apply_joints_tpose H fuel w transform joints_initial additional_parents = some s ∧
      s.world.calls = w.calls ++ [Call.spdlog_info "No joints to apply tpose"] ∧
      s.world.calls.filter Call.isMutation = w.calls.filter Call.isMutation ∧
      s.world.joint_position = w.joint_position ∧
      s.world.joint_rotation = w.joint_rotation := by
  have key : ∀ s : TposeFrame R, s.world = spdlog_info w "No joints to apply tpose" →
      s.world.calls = w.calls ++ [Call.spdlog_info "No joints to apply tpose"] ∧
      s.world.calls.filter Call.isMutation = w.calls.filter Call.isMutation ∧
      s.world.joint_position = w.joint_position ∧
      s.world.joint_rotation = w.joint_rotation := by
    intro s hs
    rw [hs]
    simp [spdlog_info, List.filter_append, Call.isMutation]
  cases joints_initial with
  | nil => exact ⟨_, rfl, key _ rfl⟩
  | cons x rest =>
    cases x with
    | none => exact ⟨_, rfl, key _ rfl⟩
    | some j => rcases h with h | h <;> simp at h

theorem apply_joints_tpose_no_joints_witness :
    ∃ s, apply_joints_tpose sampleHost 0 sampleWorld 0 [none, some 1] 2 = some s ∧
      s.world.calls = sampleWorld.calls ++ [Call.spdlog_info "No joints to apply tpose"] ∧
      s.world.calls.filter Call.isMutation = sampleWorld.calls.filter Call.isMutation ∧
      s.world.joint_position = sampleWorld.joint_position ∧
      s.world.joint_rotation = sampleWorld.joint_rotation :=
  apply_joints_tpose_no_joints sampleHost 0 sampleWorld 0 [none, some 1] 2 (Or.inr rfl)

/-- C3 (as amended): for a chain whose first joint is non-null and has the
ancestors `anc` (nearest first, `d` of them), the chain processed by
`apply_joints_tpose` with `additional_parents = N` is the supplied chain with
the `min (N + 1) d` nearest ancestors in front, ancestor first, when `d > 0`,
and with one null entry in front when `d = 0`; the call succeeds whatever
`N` is. -/
theorem processed_chain_ancestors (H : Host R) (transform fuel : Nat) (w : World R)
    (hinfo : InfoOk H) (hdepth : DepthBelow H transform fuel) (j0 : Nat)
    (rest : List (Option Nat)) (additional_parents : Nat) (anc : List Nat)
    (hanc : ParentChain H j0 anc) :
    ∃ s, apply_joints_tpose H fuel w transform (some j0 :: rest) additional_parents = some s ∧
      s.joints = (if anc = [] then [none]
          else ((anc.take (additional_parents + 1)).reverse.map some)) ++ (some j0 :: rest) ∧
      s.joints.length = (some j0 :: rest).length
        + (if anc = [] then 1 else min (additional_parents + 1) anc.length) := by
  obtain ⟨s, hs, post⟩ :=
    apply_run_post H transform fuel w hinfo hdepth j0 rest additional_parents
  have hj := post.joints
  rw [processed_joints_eq H j0 rest additional_parents anc hanc] at hj
  refine ⟨s, hs, hj, ?_⟩
  rw [hj]
  by_cases ha : anc = []
  · simp [ha]
  · simp [ha]; omega

theorem processed_chain_ancestors_witness :
    ∃ s, apply_joints_tpose sampleHost 3 sampleWorld 0 (some 2 :: []) 5 = some s ∧
      s.joints = (if ([1, 0] : List Nat) = [] then [none]
          else ((([1, 0] : List Nat).take (5 + 1)).reverse.map some)) ++ (some 2 :: []) ∧
      s.joints.length = (some 2 :: ([] : List (Option Nat))).length
        + (if ([1, 0] : List Nat) = [] then 1 else min (5 + 1) ([1, 0] : List Nat).length) :=
  processed_chain_ancestors sampleHost 0 3 sampleWorld sample_infoOk
    (sample_depth 0 3 (le_refl 3)) 2 [] 5 [1, 0] ⟨rfl, rfl, rfl⟩

/-- C3 fails as stated: joint `1` of the sample skeleton has one ancestor
(`d = 1`); with `additional_parents = 0` the processed chain is `[0, 1]`,
one joint longer than the supplied chain, while `min (0, 1) = 0` joints were
to be put in front. -/
theorem processed_chain_one_parent_more :
    ParentChain sampleHost 1 [0] ∧
    ∃ s, apply_joints_tpose sampleHost 3 sampleWorld 0 [some 1] 0 = some s ∧
      s.joints = [some 0, some 1] ∧
      s.joints ≠ ((([0] : List Nat).take (min 0 1)).reverse.map some) ++ [some 1] := by
  refine ⟨⟨rfl, rfl⟩, ?_⟩
  obtain ⟨s, hs, post⟩ :=
    apply_run_post sampleHost 0 3 sampleWorld sample_infoOk (sample_depth 0 3 (le_refl 3)) 1 [] 0
  have hj := post.joints
  rw [sample_processed_2] at hj
  exact ⟨s, hs, hj, by rw [hj]; decide⟩

theorem vec3_add_sub_cancel (c d : Vector3f R) : (c + d) - c = d := by
  ext <;> simp

omit [CommRing R] in
theorem getD_mem_of_lt (js : List (Option Nat)) :
    ∀ i, i < js.length → js.getD i none ∈ js := by
  induction js with
  | nil => intro i h; simp at h
  | cons x t ih =>
    intro i h
    cases i with
    | zero => simp
    | succ i =>
      have := ih i (by simpa using h)
      simp only [List.getD_cons_succ]
      exact List.mem_cons_of_mem _ this

omit [CommRing R] in
theorem getD_some_of_no_null (js : List (Option Nat)) (hnn : ∀ x ∈ js, x ≠ none) (i : Nat)
    (h : i < js.length) : ∃ a, js.getD i none = some a := by
  have hm := getD_mem_of_lt js i h
  cases hx : js.getD i none with
  | none => rw [hx] at hm; exact absurd rfl (hnn none hm)
  | some a => exact ⟨a, rfl⟩

theorem sample_processed_3 :
    processed_joints sampleHost [some 1, none, some 2, some 3] 0
      = [some 0, some 1, none, some 2, some 3] := by
  rfl

/-- C1 (as amended): for a chain of pairwise distinct joints whose first
joint has no parent (`sdk::get_joint_parent` returns null for it),
`apply_joints_tpose` with `additional_parents = 0` issues no world position
or rotation write to the first joint of the chain, whose world position and
rotation after the call are those before the call. -/
theorem first_joint_untouched (H : Host R) (transform fuel : Nat) (w : World R)
    (hinfo : InfoOk H) (hdepth : DepthBelow H transform fuel) (j0 : Nat)
    (rest : List (Option Nat)) (hdist : (some j0 :: rest).reduceOption.Nodup)
    (hroot : get_joint_parent H (some j0) = none) :
    ∃ s, apply_joints_tpose H fuel w transform (some j0 :: rest) 0 = some s ∧
      s.world.calls.filter (Call.isWriteTo j0) = w.calls.filter (Call.isWriteTo j0) ∧
      s.world.joint_position j0 = w.joint_position j0 ∧
      s.world.joint_rotation j0 = w.joint_rotation j0 := by
  obtain ⟨s, hs, post⟩ := apply_run_post H transform fuel w hinfo hdepth j0 rest 0
  have hjs : processed_joints H (some j0 :: rest) 0 = none :: some j0 :: rest := by
    rw [processed_joints_eq H j0 rest 0 [] hroot]; rfl
  rw [hjs] at post
  obtain ⟨u1, u2, u3⟩ := post.untouched j0 (by
    intro m a h1 h2
    cases m with
    | zero => simp at h1
    | succ m =>
      have h3 : (some j0 :: rest).getD (m + 1) none = some j0 := by simpa using h2
      have h4 : (some j0 :: rest).getD 0 none = some j0 := rfl
      have := distinct_of_nodup (some j0 :: rest) hdist (m + 1) 0 j0 h3 h4
      omega)
  exact ⟨s, hs, u3, u1, u2⟩

theorem first_joint_untouched_witness :
    ∃ s, apply_joints_tpose sampleHost 3 sampleWorld 0 (some 0 :: [some 1, some 2]) 0 = some s ∧
      s.world.calls.filter (Call.isWriteTo 0) = sampleWorld.calls.filter (Call.isWriteTo 0) ∧
      s.world.joint_position 0 = sampleWorld.joint_position 0 ∧
      s.world.joint_rotation 0 = sampleWorld.joint_rotation 0 :=
  first_joint_untouched sampleHost 0 3 sampleWorld sample_infoOk (sample_depth 0 3 (le_refl 3))
    0 [some 1, some 2] (by decide) rfl

/-- C1 fails as stated: for the chain `[1, 2]` of the sample skeleton, of
length 2 with distinct non-null joints, and `additional_parents = 0`, the
parent `0` of joint `1` is put in front and joint `1`, the first joint of the
supplied chain, is written: it moves from `(5, 5, 5)` to `(0, 6, 5)`. -/
theorem first_joint_written :
    (([some 1, some 2] : List (Option Nat)).reduceOption).Nodup ∧
    ∃ s, apply_joints_tpose sampleHost 3 sampleWorld 0 [some 1, some 2] 0 = some s ∧
      Call.set_joint_position 1 ⟨0, 6, 5, 1⟩ ∈ s.world.calls ∧
      s.world.joint_position 1 = ⟨0, 6, 5, 1⟩ ∧
      sampleWorld.joint_position 1 = ⟨5, 5, 5, 1⟩ := by
  refine ⟨by decide, ?_⟩
  obtain ⟨s, hs, post⟩ :=
    apply_run_post sampleHost 0 3 sampleWorld sample_infoOk (sample_depth 0 3 (le_refl 3))
      1 [some 2] 0
  rw [sample_processed_1] at post
  have h0 := post.cur_first 0 rfl
  have h1 := post.cur_link 0 0 1 rfl rfl
  rw [h0] at h1
  have hv : s.current_positions (0 + 1) = ⟨0, 6, 5⟩ := by
    rw [h1]; decide
  obtain ⟨x1, _, x3⟩ := post.written 0 0 1 rfl rfl
  rw [hv] at x1 x3
  have hlater : ∀ k c, 0 < k → ([some 0, some 1, some 2] : List (Option Nat)).getD k none = some c →
      ([some 0, some 1, some 2] : List (Option Nat)).getD (k + 1) none ≠ some 1 := by
    intro k c hk _ h2
    have := distinct_of_nodup [some 0, some 1, some 2] (by decide) (k + 1) 1 1 h2 rfl
    omega
  exact ⟨s, hs, x1, (x3 hlater).1, rfl⟩

/-- C2: when the processed chain has no null entry, for every index `i`
with `i + 1` below its length the position written to joint `i + 1`
(`current_positions[i + 1]` when the function returns) minus the position
of joint `i` (`current_positions[i]`, for `i = 0` the live world position of
the first processed joint) is the live rotation of the root applied to the
difference of the bind translations of the two joints; neither the live
position of the root nor the earlier live positions of the joints enter. -/
theorem consecutive_offsets (H : Host R) (transform fuel : Nat) (w : World R)
    (hinfo : InfoOk H) (hdepth : DepthBelow H transform fuel) (j0 : Nat)
    (rest : List (Option Nat)) (additional_parents : Nat)
    (hnn : ∀ x ∈ processed_joints H (some j0 :: rest) additional_parents, x ≠ none) :
    ∃ s, apply_joints_tpose H fuel w transform (some j0 :: rest) additional_parents = some s ∧
      s.joints = processed_joints H (some j0 :: rest) additional_parents ∧
      (∃ a, s.joints.getD 0 none = some a ∧
        s.current_positions 0 = (w.joint_position a).xyz) ∧
      ∀ i, i + 1 < s.joints.length →
        ∃ a b Ma ca Mb cb, s.joints.getD i none = some a ∧
          s.joints.getD (i + 1) none = some b ∧
          calculate_base_transform H transform fuel (some a) = some (Ma, ca) ∧
          calculate_base_transform H transform fuel (some b) = some (Mb, cb) ∧
          Call.set_joint_position b (Vector4f.ofVec3 (s.current_positions (i + 1)) 1)
            ∈ s.world.calls ∧
          s.current_positions (i + 1) - s.current_positions i
            = (w.transform_rotation transform).rotate (Mb.c3.xyz - Ma.c3.xyz) := by
  obtain ⟨s, hs, post⟩ :=
    apply_run_post H transform fuel w hinfo hdepth j0 rest additional_parents
  have hlen := processed_joints_length H (some j0 :: rest) additional_parents
  generalize processed_joints H (some j0 :: rest) additional_parents = js at post hnn hlen
  have hj := post.joints
  refine ⟨s, hs, hj, ?_, ?_⟩
  · obtain ⟨a, ha⟩ := getD_some_of_no_null js hnn 0 (by simp at hlen; omega)
    exact ⟨a, by rw [hj]; exact ha, post.cur_first a ha⟩
  · intro i hi
    rw [hj] at hi ⊢
    obtain ⟨a, ha⟩ := getD_some_of_no_null js hnn i (by omega)
    obtain ⟨b, hb⟩ := getD_some_of_no_null js hnn (i + 1) hi
    obtain ⟨ca, hca⟩ := bind_matrix_spec H transform fuel a hinfo hdepth
    obtain ⟨cb, hcb⟩ := bind_matrix_spec H transform fuel b hinfo hdepth
    refine ⟨a, b, _, ca, _, cb, ha, hb, hca, hcb, (post.written i a b ha hb).1, ?_⟩
    rw [post.cur_link i a b ha hb, vec3_add_sub_cancel]

theorem consecutive_offsets_witness :
    ∃ s, apply_joints_tpose sampleHost 3 sampleWorld 0 (some 1 :: [some 2]) 0 = some s ∧
      s.joints = processed_joints sampleHost (some 1 :: [some 2]) 0 ∧
      (∃ a, s.joints.getD 0 none = some a ∧
        s.current_positions 0 = (sampleWorld.joint_position a).xyz) ∧
      ∀ i, i + 1 < s.joints.length →
        ∃ a b Ma ca Mb cb, s.joints.getD i none = some a ∧
          s.joints.getD (i + 1) none = some b ∧
          calculate_base_transform sampleHost 0 3 (some a) = some (Ma, ca) ∧
          calculate_base_transform sampleHost 0 3 (some b) = some (Mb, cb) ∧
          Call.set_joint_position b (Vector4f.ofVec3 (s.current_positions (i + 1)) 1)
            ∈ s.world.calls ∧
          s.current_positions (i + 1) - s.current_positions i
            = (sampleWorld.transform_rotation 0).rotate (Mb.c3.xyz - Ma.c3.xyz) :=
  consecutive_offsets sampleHost 0 3 sampleWorld sample_infoOk (sample_depth 0 3 (le_refl 3))
    1 [some 2] 0 (by rw [sample_processed_1]; decide)

/-- C10 (as amended): when the processed chain has pairwise distinct joints,
its entry at an index `k` is null and its entry at `k + 1` is the joint `b`,
the call issues no position or rotation write to `b`, whose live pose stays
as it was (writes only ever name a joint, so none is issued for the null
entry), and, over exact arithmetic (any commutative ring), a joint `c` at
index `k + 2` is written to, and ends at, the live position of `b` plus the
live rotation of the root applied to the difference of the bind translations
of `c` and `b`. -/
theorem null_entry_skipped (H : Host R) (transform fuel : Nat) (w : World R)
    (hinfo : InfoOk H) (hdepth : DepthBelow H transform fuel) (j0 : Nat)
    (rest : List (Option Nat)) (additional_parents : Nat)
    (hdist : (processed_joints H (some j0 :: rest) additional_parents).reduceOption.Nodup)
    (k b : Nat)
    (hk : (processed_joints H (some j0 :: rest) additional_parents).getD k none = none)
    (hb : (processed_joints H (some j0 :: rest) additional_parents).getD (k + 1) none
      = some b) :
    ∃ s, apply_joints_tpose H fuel w transform (some j0 :: rest) additional_parents = some s ∧
      s.world.calls.filter (Call.isWriteTo b) = w.calls.filter (Call.isWriteTo b) ∧
      s.world.joint_position b = w.joint_position b ∧
      s.world.joint_rotation b = w.joint_rotation b ∧
      ∀ c, (processed_joints H (some j0 :: rest) additional_parents).getD (k + 2) none = some c →
        ∃ Mb cb Mc cc,
          calculate_base_transform H transform fuel (some b) = some (Mb, cb) ∧
          calculate_base_transform H transform fuel (some c) = some (Mc, cc) ∧
          Call.set_joint_position c
            (Vector4f.ofVec3 ((w.joint_position b).xyz
              + (w.transform_rotation transform).rotate (Mc.c3.xyz - Mb.c3.xyz)) 1)
            ∈ s.world.calls ∧
          s.world.joint_position c
            = Vector4f.ofVec3 ((w.joint_position b).xyz
              + (w.transform_rotation transform).rotate (Mc.c3.xyz - Mb.c3.xyz)) 1 := by
  obtain ⟨s, hs, post⟩ :=
    apply_run_post H transform fuel w hinfo hdepth j0 rest additional_parents
  generalize processed_joints H (some j0 :: rest) additional_parents = js at post hdist hk hb
  have hd := distinct_of_nodup js hdist
  obtain ⟨u1, u2, u3⟩ := post.untouched b (by
    intro m a h1 h2
    have := hd (m + 1) (k + 1) b h2 hb
    have hmk : m = k := by omega
    rw [hmk, hk] at h1
    cases h1)
  refine ⟨s, hs, u3, u1, u2, ?_⟩
  intro c hc
  obtain ⟨cb, hcb⟩ := bind_matrix_spec H transform fuel b hinfo hdepth
  obtain ⟨cc, hcc⟩ := bind_matrix_spec H transform fuel c hinfo hdepth
  have hcur : s.current_positions (k + 1 + 1) = (w.joint_position b).xyz
      + (w.transform_rotation transform).rotate
        ((bind_matrix H transform fuel c).c3.xyz - (bind_matrix H transform fuel b).c3.xyz) := by
    rw [post.cur_link (k + 1) b c hb hc, post.cur_nolink k b hk hb]
  obtain ⟨x1, _, x3⟩ := post.written (k + 1) b c hb hc
  rw [hcur] at x1 x3
  refine ⟨_, cb, _, cc, hcb, hcc, x1, (x3 ?_).1⟩
  intro m a h1 _ h3
  have := hd (m + 1) (k + 2) c h3 hc
  omega

theorem null_entry_skipped_witness :
    ∃ s, apply_joints_tpose sampleHost 3 sampleWorld 0 (some 1 :: [none, some 2, some 3]) 0
        = some s ∧
      s.world.calls.filter (Call.isWriteTo 2) = sampleWorld.calls.filter (Call.isWriteTo 2) ∧
      s.world.joint_position 2 = sampleWorld.joint_position 2 ∧
      s.world.joint_rotation 2 = sampleWorld.joint_rotation 2 ∧
      ∀ c, (processed_joints sampleHost (some 1 :: [none, some 2, some 3]) 0).getD (2 + 2) none
          = some c →
        ∃ Mb cb Mc cc,
          calculate_base_transform sampleHost 0 3 (some 2) = some (Mb, cb) ∧
          calculate_base_transform sampleHost 0 3 (some c) = some (Mc, cc) ∧
          Call.set_joint_position c
            (Vector4f.ofVec3 ((sampleWorld.joint_position 2).xyz
              + (sampleWorld.transform_rotation 0).rotate (Mc.c3.xyz - Mb.c3.xyz)) 1)
            ∈ s.world.calls ∧
          s.world.joint_position c
            = Vector4f.ofVec3 ((sampleWorld.joint_position 2).xyz
              + (sampleWorld.transform_rotation 0).rotate (Mc.c3.xyz - Mb.c3.xyz)) 1 :=
  null_entry_skipped sampleHost 0 3 sampleWorld sample_infoOk (sample_depth 0 3 (le_refl 3))
    1 [none, some 2, some 3] 0 (by rw [sample_processed_3]; decide) 2 2
    (by rw [sample_processed_3]; rfl) (by rw [sample_processed_3]; rfl)

/-- Two runs in a row over a processed chain of pairwise distinct joints:
the second run leaves every joint where the first run put it. -/
theorem run_twice (H : Host R) (transform fuel : Nat) (w : World R)
    (js : List (Option Nat)) (hdist : js.reduceOption.Nodup) (s1 s2 : TposeFrame R)
    (post1 : RunPost H transform fuel w js s1)
    (post2 : RunPost H transform fuel s1.world js s2) :
    s2.world.joint_position = s1.world.joint_position ∧
    s2.world.joint_rotation = s1.world.joint_rotation := by
  have hd := distinct_of_nodup js hdist
  have hq : s1.world.transform_rotation transform = w.transform_rotation transform := by
    rw [post1.trot]
  have hcur : ∀ m x, js.getD m none = some x →
      s2.current_positions m = s1.current_positions m := by
    intro m
    induction m with
    | zero =>
      intro x hx
      rw [post2.cur_first x hx, post1.cur_first x hx]
      have hu := post1.untouched x (by
        intro m a _ h2
        have := hd (m + 1) 0 x h2 hx
        omega)
      rw [hu.1]
    | succ m ih =>
      intro x hx
      cases ha : js.getD m none with
      | none =>
        rw [post2.cur_nolink m x ha hx, post1.cur_nolink m x ha hx]
        have hu := post1.untouched x (by
          intro k a h1 h2
          have := hd (k + 1) (m + 1) x h2 hx
          have hkm : k = m := by omega
          rw [hkm, ha] at h1
          cases h1)
        rw [hu.1]
      | some a =>
        rw [post2.cur_link m a x ha hx, post1.cur_link m a x ha hx, ih a ha, hq]
  have hboth : ∀ j, s2.world.joint_position j = s1.world.joint_position j ∧
      s2.world.joint_rotation j = s1.world.joint_rotation j := by
    intro j
    by_cases hT : ∃ m a, js.getD m none = some a ∧ js.getD (m + 1) none = some j
    · obtain ⟨m, a, ha, hj⟩ := hT
      have hlater : ∀ k c, m < k → js.getD k none = some c →
          js.getD (k + 1) none ≠ some j := by
        intro k c hk _ h2
        have := hd (k + 1) (m + 1) j h2 hj
        omega
      obtain ⟨p1, r1⟩ := (post1.written m a j ha hj).2.2 hlater
      obtain ⟨p2, r2⟩ := (post2.written m a j ha hj).2.2 hlater
      rw [p1, p2, r1, r2, hcur (m + 1) j hj, hq]
      exact ⟨rfl, rfl⟩
    · have hu := post2.untouched j (by
        intro m a h1 h2
        exact hT ⟨m, a, h1, h2⟩)
      exact ⟨hu.1, hu.2.1⟩
  exact ⟨funext fun j => (hboth j).1, funext fun j => (hboth j).2⟩

omit [CommRing R] in
theorem reduceOption_map_some (l : List Nat) : (l.map some).reduceOption = l := by
  induction l with
  | nil => rfl
  | cons a t ih => rw [List.map_cons, List.reduceOption_cons_of_some, ih]

omit [CommRing R] in
/-- The processed form of an ancestor-first chain of distinct joints has
distinct joints: the ancestors put in front are distinct and outside the
chain. -/
theorem processed_joints_nodup (H : Host R) (j0 : Nat) (rest : List (Option Nat)) (n : Nat)
    (anc : List Nat) (hdist : (some j0 :: rest).reduceOption.Nodup)
    (hanc : ParentChain H j0 anc) (hnodup : anc.Nodup)
    (hout : ∀ a ∈ anc, some a ∉ (some j0 :: rest)) :
    (processed_joints H (some j0 :: rest) n).reduceOption.Nodup := by
  rw [processed_joints_eq H j0 rest n anc hanc]
  by_cases ha : anc = []
  · simp only [ha, if_true, List.singleton_append, List.reduceOption_cons_of_none]
    exact hdist
  · simp only [ha, if_false]
    rw [List.reduceOption_append, reduceOption_map_some]
    apply List.Nodup.append
    · exact List.nodup_reverse.mpr (hnodup.sublist (List.take_sublist _ _))
    · exact hdist
    · intro x hx1 hx2
      have h1 : x ∈ anc := List.mem_of_mem_take (List.mem_reverse.mp hx1)
      exact hout x h1 (List.reduceOption_mem_iff.mp hx2)

/-- C8: `apply_joints_tpose` is idempotent.  In the accessor model where a
write changes the written joint's stored world pose only, with the root
transform and the bind data fixed, for every chain of pairwise distinct
joints (null entries allowed after the first) that is ancestor-first in a
tree, so that the ancestors of its first joint are pairwise distinct and
none of them is an entry of the chain, and for every `additional_parents`,
both calls succeed and the second call leaves every joint's world position
and rotation as the first call left them. -/
theorem apply_joints_tpose_idempotent (H : Host R) (transform fuel : Nat) (w : World R)
    (hinfo : InfoOk H) (hdepth : DepthBelow H transform fuel) (j0 : Nat)
    (rest : List (Option Nat)) (additional_parents : Nat) (anc : List Nat)
    (hdist : (some j0 :: rest).reduceOption.Nodup)
    (hanc : ParentChain H j0 anc) (hnodup : anc.Nodup)
    (hout : ∀ a ∈ anc, some a ∉ (some j0 :: rest)) :
    ∃ s1 s2,
      apply_joints_tpose H fuel w transform (some j0 :: rest) additional_parents = some s1 ∧
      apply_joints_tpose H fuel s1.world transform (some j0 :: rest) additional_parents
        = some s2 ∧
      s2.world.joint_position = s1.world.joint_position ∧
      s2.world.joint_rotation = s1.world.joint_rotation := by
  have hd := processed_joints_nodup H j0 rest additional_parents anc hdist hanc hnodup hout
  obtain ⟨s1, h1, post1⟩ :=
    apply_run_post H transform fuel w hinfo hdepth j0 rest additional_parents
  obtain ⟨s2, h2, post2⟩ :=
    apply_run_post H transform fuel s1.world hinfo hdepth j0 rest additional_parents
  exact ⟨s1, s2, h1, h2, run_twice H transform fuel w _ hd s1 s2 post1 post2⟩

theorem apply_joints_tpose_idempotent_witness :
    ∃ s1 s2,
      apply_joints_tpose sampleHost 3 sampleWorld 0 (some 1 :: [some 2, none, some 3]) 1
        = some s1 ∧
      apply_joints_tpose sampleHost 3 s1.world 0 (some 1 :: [some 2, none, some 3]) 1
        = some s2 ∧
      s2.world.joint_position = s1.world.joint_position ∧
      s2.world.joint_rotation = s1.world.joint_rotation :=
  apply_joints_tpose_idempotent sampleHost 0 3 sampleWorld sample_infoOk
    (sample_depth 0 3 (le_refl 3)) 1 [some 2, none, some 3] 1 [0] (by decide) ⟨rfl, rfl⟩
    (by decide) (by decide)

end TposeClaims

/-! ## Rounding: where single precision departs from exact arithmetic -/

section Rounding

/-- C10 fails as stated, in the single precision arithmetic of the code: with
the root transform at `(2^24, 0, 0)` and the chain `[4, null, 5, 6]`, whose
processed form is `[0, 4, null, 5, 6]`, joint `6` at index `k + 2 = 4` is
written to `(25, 3, 5)`, while the live position `(25, 5, 5)` of joint `5`
plus the rotated bind offset `(1, -2, 0)` between joints `5` and `6` is
`(26, 3, 5)`: the root position does not cancel in
`original_positions[4] - original_positions[3]`. -/
theorem null_entry_offset_rounds :
    processed_joints floatHost [some 4, none, some 5, some 6] 0
      = [some 0, some 4, none, some 5, some 6] ∧
    ∃ s Mb cb Mc cc,
      apply_joints_tpose floatHost 3 floatWorld 0 [some 4, none, some 5, some 6] 0 = some s ∧
      calculate_base_transform floatHost 0 3 (some 5) = some (Mb, cb) ∧
      calculate_base_transform floatHost 0 3 (some 6) = some (Mc, cc) ∧
      floatWorld.joint_position 5 = ⟨25, 5, 5, 1⟩ ∧
      Mc.c3.xyz - Mb.c3.xyz = ⟨1, 0 - 2, 0⟩ ∧
      s.world.joint_position 6 = ⟨25, 3, 5, 1⟩ ∧
      Vector4f.ofVec3 ((floatWorld.joint_position 5).xyz
        + (floatWorld.transform_rotation 0).rotate (Mc.c3.xyz - Mb.c3.xyz)) 1
        = ⟨26, 3, 5, 1⟩ :=
  ⟨by decide, _, _, _, _, _, rfl, rfl, rfl, by decide, by decide, by decide, by decide⟩

end Rounding

end REFramework
